import Mathlib

/-!
Verification of the ConnectFour repository core: board state machine
(`src/models/board.py`, `src/models/game.py`) and the adversarial search engine
(`src/ai/minimax_ai.py`).

Conventions of the embedding:
* Cells are natural numbers: `EMPTY = 0`, `PLAYER1 = 1`, `PLAYER2 = 2`
  (src/utils/constants.py).
* `board.py`'s methods reference the module-level dimensions `ROWS` and `COLS`;
  in `src/utils/constants.py` these are `ROWS = 8` and `COLS = 9` (note that
  `board.py`'s own import line pulls in only `EMPTY`, `WIN_LENGTH` and
  `DIRECTIONS`, so the dimension globals resolve through the intended
  constants module).  The primary model therefore works with a fixed
  `ROWS × COLS = 8 × 9` grid, the only configuration on which the board
  methods are well defined; a separate dimension-faithful model
  (`GBoard` below) is used for the 6×7 scenario of claim C6, where grid
  accesses out of the allocated matrix are modelled as errors
  (numpy raises `IndexError` there).
* Gravity convention of the source: row 0 is the physical bottom,
  row `ROWS - 1` the top.
-/

namespace ConnectFour

/-- `EMPTY` from src/utils/constants.py. -/
abbrev EMPTY : Nat := 0

/-- `PLAYER1` from src/utils/constants.py. -/
abbrev PLAYER1 : Nat := 1

/-- `PLAYER2` from src/utils/constants.py. -/
abbrev PLAYER2 : Nat := 2

/-- `ROWS` from src/utils/constants.py. -/
abbrev ROWS : Nat := 8

/-- `COLS` from src/utils/constants.py. -/
abbrev COLS : Nat := 9

/-- `WIN_LENGTH` from src/utils/constants.py. -/
abbrev WIN_LENGTH : Nat := 4

/-- `DIRECTIONS` from src/utils/constants.py: (dy, dx) for horizontal,
vertical, falling diagonal and rising diagonal scans. -/
def DIRECTIONS : List (Int × Int) := [(0, 1), (1, 0), (1, 1), (1, -1)]

/-- The cell matrix of an 8×9 board: `grid r c` is the cell at (bottom-based)
row `r`, column `c`, mirroring `self.grid[row][col]`. -/
def Grid := Fin ROWS → Fin COLS → Nat

instance : DecidableEq Grid := by unfold Grid; infer_instance

/-- The all-empty grid (`np.zeros`). -/
def emptyGrid : Grid := fun _ _ => EMPTY

/-- Bounds-checked cell access used by `_check_direction`
(`if row < 0 or row >= ROWS or col < 0 or col >= COLS`). -/
def cellI (g : Grid) (row col : Int) : Option Nat :=
  if h : 0 ≤ row ∧ row < (ROWS : Int) ∧ 0 ≤ col ∧ col < (COLS : Int) then
    some (g ⟨row.toNat, by omega⟩ ⟨col.toNat, by omega⟩)
  else
    none

/-- `Board._check_direction`: `WIN_LENGTH` consecutive cells equal to `piece`
starting at `(start_row, start_col)` along `(dy, dx)`; positions leaving the
board make it fail. -/
def checkDirection (g : Grid) (startRow : Fin ROWS) (startCol : Fin COLS)
    (dy dx : Int) (piece : Nat) : Bool :=
  (List.range WIN_LENGTH).all fun i =>
    match cellI g ((startRow : Int) + i * dy) ((startCol : Int) + i * dx) with
    | some v => v == piece
    | none => false

/-- `Board.check_win`: scan every cell in row-major order; at each cell
holding `piece` try all four directions. -/
def checkWin (g : Grid) (piece : Nat) : Bool :=
  (List.finRange ROWS).any fun row =>
    (List.finRange COLS).any fun col =>
      (g row col == piece) &&
        DIRECTIONS.any fun d => checkDirection g row col d.1 d.2 piece

/-- `Board.is_valid_location`: in range and the top cell (`grid[ROWS-1][col]`)
is empty. -/
def isValidLocation (g : Grid) (col : Nat) : Bool :=
  if h : col < COLS then g 7 ⟨col, h⟩ == EMPTY else false

/-- `Board.get_next_open_row` restricted to in-range columns: the first
empty row scanning from the physical bottom (row 0) upwards. -/
def getNextOpenRow (g : Grid) (col : Fin COLS) : Option (Fin ROWS) :=
  (List.finRange ROWS).find? fun row => g row col == EMPTY

/-- The grid update performed by `Board.drop_piece`
(`self.grid[row][col] = piece`). -/
def setCell (g : Grid) (row : Fin ROWS) (col : Fin COLS) (piece : Nat) : Grid :=
  fun r c => if r = row ∧ c = col then piece else g r c

/-- `Board.is_full`: no cell of the whole grid equals `EMPTY`. -/
def isFull (g : Grid) : Bool :=
  (List.finRange ROWS).all fun row =>
    (List.finRange COLS).all fun col => !(g row col == EMPTY)

/-- `Board.get_valid_locations`: the columns of `range(COLS)` that pass
`is_valid_location`, in ascending order. -/
def getValidLocations (g : Grid) : List (Fin COLS) :=
  (List.finRange COLS).filter fun col => isValidLocation g col

/-- A gravity-consistent grid: below any occupied cell every cell of the same
column is occupied (every column is a bottom-justified stack).  This is the
data-model invariant of §3 of the spec, maintained by `play_turn`. -/
def Stacked (g : Grid) : Prop :=
  ∀ (r : Fin ROWS) (c : Fin COLS), g r c ≠ EMPTY →
    ∀ r' : Fin ROWS, (r' : Nat) ≤ (r : Nat) → g r' c ≠ EMPTY

instance (g : Grid) : Decidable (Stacked g) := by
  unfold Stacked; infer_instance

/-- The mutable state of `Board` (src/models/board.py): the grid plus the
LIFO `history` of `(row, col)` placements (`append` at the end,
`pop` from the end, as in the Python list). -/
structure Board where
  grid : Grid
  history : List (Fin ROWS × Fin COLS)

/-- `Board.drop_piece`: record `(row, col)` in the history, then set the
cell. -/
def dropPiece (b : Board) (row : Fin ROWS) (col : Fin COLS) (piece : Nat) :
    Board :=
  { grid := setCell b.grid row col piece, history := b.history ++ [(row, col)] }

/-- `Board.undo_last_move`: `False` if the history is empty, else pop the
last `(row, col)`, clear that cell and return `True`. -/
def undoLastMove (b : Board) : Bool × Board :=
  match b.history.getLast? with
  | none => (false, b)
  | some rc =>
      (true, { grid := setCell b.grid rc.1 rc.2 EMPTY,
               history := b.history.dropLast })

/-- `GameState` from src/utils/enums.py (the two values used by the core). -/
inductive GameState where
  | IN_PROGRESS
  | FINISHED
deriving DecidableEq, Repr

/-- The state of `Game` (src/models/game.py): board, active player, match
status, optional winner and the `(col, player)` move log. -/
structure Game where
  board : Board
  currentPlayer : Nat
  state : GameState
  winner : Option Nat
  moveHistory : List (Nat × Nat)

/-- `Game.__init__` on the reference 8×9 configuration with `start_player =
PLAYER1`. -/
def freshGame : Game :=
  { board := { grid := emptyGrid, history := [] }
    currentPlayer := PLAYER1
    state := GameState.IN_PROGRESS
    winner := none
    moveHistory := [] }

/-- `Game._switch_player`. -/
def switchPlayer (p : Nat) : Nat :=
  if p = PLAYER1 then PLAYER2 else PLAYER1

/-- `Game.play_turn`: returns `(success, new state)`.  Mirrors the source:
no-op when the match is not in progress or the column is invalid; otherwise
place the active player's piece at the next open row, append to the move
log, then check win, then draw, else switch the active player. -/
def playTurn (s : Game) (col : Nat) : Bool × Game :=
  match s.state with
  | GameState.FINISHED => (false, s)
  | GameState.IN_PROGRESS =>
    if h : col < COLS then
      let c : Fin COLS := ⟨col, h⟩
      if s.board.grid 7 c == EMPTY then
        match getNextOpenRow s.board.grid c with
        | none => (false, s)
        | some row =>
          let b := dropPiece s.board row c s.currentPlayer
          let mh := s.moveHistory ++ [(col, s.currentPlayer)]
          if checkWin b.grid s.currentPlayer then
            (true, { s with board := b, moveHistory := mh,
                            state := GameState.FINISHED,
                            winner := some s.currentPlayer })
          else if isFull b.grid then
            (true, { s with board := b, moveHistory := mh,
                            state := GameState.FINISHED, winner := none })
          else
            (true, { s with board := b, moveHistory := mh,
                            currentPlayer := switchPlayer s.currentPlayer })
      else (false, s)
    else (false, s)

/-- `Game.undo`: try `Board.undo_last_move`; on success switch the active
player and, if the match was finished, reset it to in-progress with no
winner.  (The `(col, player)` move log is NOT touched by this method.) -/
def undoGame (s : Game) : Bool × Game :=
  let ub := undoLastMove s.board
  if ub.1 then
    let s1 := { s with board := ub.2,
                       currentPlayer := switchPlayer s.currentPlayer }
    match s.state with
    | GameState.FINISHED =>
        (true, { s1 with state := GameState.IN_PROGRESS, winner := none })
    | GameState.IN_PROGRESS => (true, s1)
  else (false, s)

/-- The states reachable from a fresh match by arbitrary `play_turn` and
`undo` calls. -/
inductive Reachable : Game → Prop where
  | fresh : Reachable freshGame
  | play (s : Game) (col : Nat) : Reachable s → Reachable (playTurn s col).2
  | undo (s : Game) : Reachable s → Reachable (undoGame s).2

/-!
## Dimension-faithful board model

`Board.__init__` allocates a `rows × cols` matrix, but every scanning method
iterates up to the module-level `ROWS`/`COLS` (8/9).  To settle the 6×7
scenario of claim C6 we model the grid as the actually allocated nested list
and model an access outside it as an error (numpy raises `IndexError`).
-/

/-- A grid of arbitrary allocated dimensions: a list of rows (row 0 =
physical bottom), each a list of cells. -/
def GGrid := List (List Nat)

instance : DecidableEq GGrid := by unfold GGrid; infer_instance

/-- `self.grid[row][col]` on the allocated matrix: `none` models the
`IndexError` numpy raises outside it. -/
def cellG (g : GGrid) (row col : Nat) : Option Nat :=
  (g.get? row).bind fun r => r.get? col

/-- `self.grid[row][col] = piece` (no-op outside the allocated matrix;
never exercised there by the scenarios below). -/
def setCellG (g : GGrid) (row col : Nat) (piece : Nat) : GGrid :=
  match g.get? row with
  | none => g
  | some r => g.set row (r.set col piece)

/-- `Board._check_direction` on the allocated matrix: the `i`-th step checks
the position against the module-level bounds `ROWS`/`COLS` (returning `False`
outside them) and then reads the cell, which raises if the allocated matrix
is smaller than `ROWS × COLS`. -/
def checkDirectionG (g : GGrid) (startRow startCol : Nat) (dy dx : Int)
    (piece : Nat) : List Nat → Except Unit Bool
  | [] => Except.ok true
  | i :: rest =>
    let row : Int := (startRow : Int) + i * dy
    let col : Int := (startCol : Int) + i * dx
    if 0 ≤ row ∧ row < (ROWS : Int) ∧ 0 ≤ col ∧ col < (COLS : Int) then
      match cellG g row.toNat col.toNat with
      | none => Except.error ()
      | some v =>
          if v = piece then checkDirectionG g startRow startCol dy dx piece rest
          else Except.ok false
    else Except.ok false

/-- The inner direction loop of `Board.check_win` at one cell. -/
def tryDirectionsG (g : GGrid) (row col piece : Nat) :
    List (Int × Int) → Except Unit Bool
  | [] => Except.ok false
  | d :: rest =>
    match checkDirectionG g row col d.1 d.2 piece (List.range WIN_LENGTH) with
    | Except.error e => Except.error e
    | Except.ok true => Except.ok true
    | Except.ok false => tryDirectionsG g row col piece rest

/-- The row-major cell scan of `Board.check_win` (each visited cell is read,
raising beyond the allocated matrix). -/
def scanWinG (g : GGrid) (piece : Nat) : List (Nat × Nat) → Except Unit Bool
  | [] => Except.ok false
  | rc :: rest =>
    match cellG g rc.1 rc.2 with
    | none => Except.error ()
    | some v =>
        if v = piece then
          match tryDirectionsG g rc.1 rc.2 piece DIRECTIONS with
          | Except.error e => Except.error e
          | Except.ok true => Except.ok true
          | Except.ok false => scanWinG g piece rest
        else scanWinG g piece rest

/-- `Board.check_win` on the allocated matrix: scan rows `0..ROWS-1` and
columns `0..COLS-1` (the module-level 8/9) in row-major order. -/
def checkWinG (g : GGrid) (piece : Nat) : Except Unit Bool :=
  scanWinG g piece
    ((List.range ROWS).flatMap fun row => (List.range COLS).map fun col => (row, col))

/-- The scan of `Board.get_next_open_row` on the allocated matrix: rows
`0..ROWS-1` from the bottom; each visited cell is read. -/
def openRowScanG (g : GGrid) (col : Nat) : List Nat → Except Unit (Option Nat)
  | [] => Except.ok none
  | row :: rest =>
    match cellG g row col with
    | none => Except.error ()
    | some v => if v = EMPTY then Except.ok (some row) else openRowScanG g col rest

/-- `Board.get_next_open_row` on the allocated matrix. -/
def getNextOpenRowG (g : GGrid) (col : Nat) : Except Unit (Option Nat) :=
  openRowScanG g col (List.range ROWS)

/-- Drop a sequence of `(col, piece)` pieces with gravity, the
`get_next_open_row` + `drop_piece` workflow of the scenario of claim C6. -/
def dropSeqG (g : GGrid) : List (Nat × Nat) → Except Unit GGrid
  | [] => Except.ok g
  | cp :: rest =>
    match getNextOpenRowG g cp.1 with
    | Except.error e => Except.error e
    | Except.ok none => Except.error ()
    | Except.ok (some row) => dropSeqG (setCellG g row cp.1 cp.2) rest

/-- The empty 6-row × 7-column board of the claim C6 scenario. -/
def empty6x7 : GGrid := List.replicate 6 (List.replicate 7 EMPTY)

/-!
## Integer-indexed column access (claim C5)

`get_next_open_row` performs no bounds check on `col`: the numpy access
`grid[row][col]` wraps a negative `col` with `-COLS ≤ col < 0` around to
column `COLS + col` and raises `IndexError` otherwise when out of range.
-/

/-- Numpy indexing of a length-`COLS` axis by a signed index. -/
def npColIdx (i : Int) : Option (Fin COLS) :=
  if h : 0 ≤ i ∧ i < (COLS : Int) then some ⟨i.toNat, by omega⟩
  else if h2 : -(COLS : Int) ≤ i ∧ i < 0 then some ⟨(i + COLS).toNat, by omega⟩
  else none

/-- `Board.is_valid_location` on a signed column index: explicitly `False`
out of `[0, COLS)`, else the top cell must be empty. -/
def isValidLocationI (g : Grid) (col : Int) : Bool :=
  if h : 0 ≤ col ∧ col < (COLS : Int) then
    g 7 ⟨col.toNat, by omega⟩ == EMPTY
  else false

/-- `Board.get_next_open_row` on a signed column index.  The column index is
loop-invariant, so the very first access (at row 0) raises exactly when the
index is outside numpy range; otherwise the scan is the in-range scan of the
(possibly wrapped-around) column. -/
def getNextOpenRowI (g : Grid) (col : Int) : Except Unit (Option (Fin ROWS)) :=
  match npColIdx col with
  | none => Except.error ()
  | some c => Except.ok (getNextOpenRow g c)

/-!
## The search engine (`src/ai/minimax_ai.py`)

Scores flow through Python floats only to hold `float('-inf')`/`float('inf')`;
all values actually produced are integers, so the value domain is modelled as
the integers extended with `⊥` (= `-inf`) and `⊤` (= `+inf`).
-/

/-- Search values: integers extended with `-inf` (`⊥`) and `+inf` (`⊤`). -/
abbrev EVal := WithBot (WithTop Int)

/-- Embed an integer score into the extended value domain. -/
def toEVal (z : Int) : EVal := ((z : WithTop Int) : EVal)

/-- `MinimaxAI.set_player`'s opponent assignment:
`PLAYER1 if piece == PLAYER2 else PLAYER2`. -/
def oppPiece (piece : Nat) : Nat :=
  if piece = PLAYER2 then PLAYER1 else PLAYER2

/-- `MinimaxAI.evaluate_window`: score one 4-cell window for `piece`
(`self.piece`); the opponent count uses `self.opponent_piece`. -/
def evaluateWindow (piece : Nat) (w : List Nat) : Int :=
  let opponent := oppPiece piece
  let pieceCount := w.count piece
  let emptyCount := w.count EMPTY
  let opponentCount := w.count opponent
  (if pieceCount = 4 then (100 : Int)
   else if pieceCount = 3 ∧ emptyCount = 1 then 5
   else if pieceCount = 2 ∧ emptyCount = 2 then 2
   else 0)
  + (if opponentCount = 3 ∧ emptyCount = 1 then -4 else 0)

/-- `MinimaxAI.score_position` on the 8×9 board (`board.rows = 8`,
`board.cols = 9`, `center_col = cols // 2 = 4`): center bonus, then
horizontal, vertical, rising-diagonal and falling-diagonal windows. -/
def scorePosition (g : Grid) (piece : Nat) : Int :=
  let centerCount := ((List.finRange ROWS).filter fun r => g r 4 = piece).length
  let centerScore : Int := (centerCount : Int) * 3
  let horizontal : Int :=
    (((List.finRange ROWS).map fun r =>
      (((List.finRange 6).map fun c =>
        evaluateWindow piece
          ((List.finRange 4).map fun i =>
            g r ⟨c.val + i.val, by show c.val + i.val < 9; omega⟩)).sum)).sum)
  let vertical : Int :=
    (((List.finRange COLS).map fun c =>
      (((List.finRange 5).map fun r =>
        evaluateWindow piece
          ((List.finRange 4).map fun i =>
            g ⟨r.val + i.val, by show r.val + i.val < 8; omega⟩ c)).sum)).sum)
  let diagUp : Int :=
    (((List.finRange 5).map fun r =>
      (((List.finRange 6).map fun c =>
        evaluateWindow piece
          ((List.finRange 4).map fun i =>
            g ⟨r.val + i.val, by show r.val + i.val < 8; omega⟩
              ⟨c.val + i.val, by show c.val + i.val < 9; omega⟩)).sum)).sum)
  let diagDown : Int :=
    (((List.finRange 5).map fun r =>
      (((List.finRange 6).map fun c =>
        evaluateWindow piece
          ((List.finRange 4).map fun i =>
            g ⟨r.val + 3 - i.val, by show r.val + 3 - i.val < 8; omega⟩
              ⟨c.val + i.val, by show c.val + i.val < 9; omega⟩)).sum)).sum)
  centerScore + horizontal + vertical + diagUp + diagDown

/-- `MinimaxAI.is_terminal_node`: either player has a win, or the grid is
full. -/
def isTerminalNode (piece : Nat) (g : Grid) : Bool :=
  checkWin g piece || checkWin g (oppPiece piece) || isFull g

/-- The base case of `MinimaxAI.minimax` (`depth == 0 or is_terminal`):
`±100000` on a decided node, `0` on a draw, else the heuristic. -/
def minimaxBase (piece : Nat) (g : Grid) : Option (Fin COLS) × EVal :=
  if isTerminalNode piece g then
    if checkWin g piece then (none, toEVal 100000)
    else if checkWin g (oppPiece piece) then (none, toEVal (-100000))
    else (none, toEVal 0)
  else (none, toEVal (scorePosition g piece))

/-- The maximizing column loop of `MinimaxAI.minimax`, carrying the current
`(column, value, alpha)`; `child c alpha beta` is the recursive score of
dropping into column `c` (`none` models the `row is None: continue` guard),
and the loop breaks as soon as `alpha >= beta`. -/
def abLoopMax (child : Fin COLS → EVal → EVal → Option EVal) :
    List (Fin COLS) → Fin COLS → EVal → EVal → EVal → Fin COLS × EVal
  | [], column, value, _, _ => (column, value)
  | c :: rest, column, value, alpha, beta =>
    match child c alpha beta with
    | none => abLoopMax child rest column value alpha beta
    | some newScore =>
      let column1 := if value < newScore then c else column
      let value1 := if value < newScore then newScore else value
      let alpha1 := max alpha value1
      if beta ≤ alpha1 then (column1, value1)
      else abLoopMax child rest column1 value1 alpha1 beta

/-- The minimizing column loop of `MinimaxAI.minimax`, dual to
`abLoopMax` (updates `beta`, breaks when `alpha >= beta`). -/
def abLoopMin (child : Fin COLS → EVal → EVal → Option EVal) :
    List (Fin COLS) → Fin COLS → EVal → EVal → EVal → Fin COLS × EVal
  | [], column, value, _, _ => (column, value)
  | c :: rest, column, value, alpha, beta =>
    match child c alpha beta with
    | none => abLoopMin child rest column value alpha beta
    | some newScore =>
      let column1 := if newScore < value then c else column
      let value1 := if newScore < value then newScore else value
      let beta1 := min beta value1
      if beta1 ≤ alpha then (column1, value1)
      else abLoopMin child rest column1 value1 alpha beta1

/-- `MinimaxAI.minimax` with alpha-beta pruning.  `pick` models
`random.choice` for the default column (claim C10 shows the result does not
depend on it); `piece` is `self.piece`.  Each child clones the board and
drops the mover's piece at the next open row. -/
def minimax (pick : List (Fin COLS) → Fin COLS) (piece : Nat) :
    Nat → Grid → EVal → EVal → Bool → Option (Fin COLS) × EVal
  | 0, g, _, _, _ => minimaxBase piece g
  | depth + 1, g, alpha, beta, maximizingPlayer =>
    if isTerminalNode piece g then minimaxBase piece g
    else
      let validLocations := getValidLocations g
      if maximizingPlayer then
        let r := abLoopMax
          (fun c a b =>
            match getNextOpenRow g c with
            | none => none
            | some row =>
                some (minimax pick piece depth (setCell g row c piece) a b
                        false).2)
          validLocations (pick validLocations) ⊥ alpha beta
        (some r.1, r.2)
      else
        let r := abLoopMin
          (fun c a b =>
            match getNextOpenRow g c with
            | none => none
            | some row =>
                some (minimax pick piece depth
                        (setCell g row c (oppPiece piece)) a b true).2)
          validLocations (pick validLocations) ⊤ alpha beta
        (some r.1, r.2)

/-- The immediate-win / immediate-block simulation of `MinimaxAI.get_move`:
drop `mover`'s piece into `col` on a copy and test `check_win(mover)`. -/
def simulatedWin (g : Grid) (mover : Nat) (col : Fin COLS) : Bool :=
  match getNextOpenRow g col with
  | none => false
  | some row => checkWin (setCell g row col mover) mover

/-- `MinimaxAI.get_move`: `None` when no column is valid; otherwise the first
immediately winning column, else the first immediately blocking column, else
the column of the alpha-beta search at the configured depth.  (The
`last_scores` diagnostic loop writes only `self.last_scores` and never
influences the returned column, so it is not modelled.) -/
def getMove (pick : List (Fin COLS) → Fin COLS) (piece : Nat) (g : Grid)
    (depth : Nat) : Option (Fin COLS) :=
  let validLocations := getValidLocations g
  if validLocations.isEmpty then none
  else
    match validLocations.find? fun col => simulatedWin g piece col with
    | some col => some col
    | none =>
      match validLocations.find? fun col => simulatedWin g (oppPiece piece) col with
      | some col => some col
      | none => (minimax pick piece depth g ⊥ ⊤ true).1

/-!
## The pruning-free minimax (comparison point of claim C7)

Modelled from the spec: "the same minimax algorithm run without the
`alpha >= beta` cutoff at the same depth, with identical column ordering and
tie-breaking".  The loops are those of `minimax` with the break removed;
everything else is identical.
-/

/-- The maximizing loop without the `alpha >= beta` break. -/
def pureLoopMax (child : Fin COLS → EVal → EVal → Option EVal) :
    List (Fin COLS) → Fin COLS → EVal → EVal → EVal → Fin COLS × EVal
  | [], column, value, _, _ => (column, value)
  | c :: rest, column, value, alpha, beta =>
    match child c alpha beta with
    | none => pureLoopMax child rest column value alpha beta
    | some newScore =>
      let column1 := if value < newScore then c else column
      let value1 := if value < newScore then newScore else value
      pureLoopMax child rest column1 value1 (max alpha value1) beta

/-- The minimizing loop without the `alpha >= beta` break. -/
def pureLoopMin (child : Fin COLS → EVal → EVal → Option EVal) :
    List (Fin COLS) → Fin COLS → EVal → EVal → EVal → Fin COLS × EVal
  | [], column, value, _, _ => (column, value)
  | c :: rest, column, value, alpha, beta =>
    match child c alpha beta with
    | none => pureLoopMin child rest column value alpha beta
    | some newScore =>
      let column1 := if newScore < value then c else column
      let value1 := if newScore < value then newScore else value
      pureLoopMin child rest column1 value1 alpha (min beta value1)

/-- `MinimaxAI.minimax` with the `alpha >= beta` cutoff removed and nothing
else changed. -/
def pureMinimax (pick : List (Fin COLS) → Fin COLS) (piece : Nat) :
    Nat → Grid → EVal → EVal → Bool → Option (Fin COLS) × EVal
  | 0, g, _, _, _ => minimaxBase piece g
  | depth + 1, g, alpha, beta, maximizingPlayer =>
    if isTerminalNode piece g then minimaxBase piece g
    else
      let validLocations := getValidLocations g
      if maximizingPlayer then
        let r := pureLoopMax
          (fun c a b =>
            match getNextOpenRow g c with
            | none => none
            | some row =>
                some (pureMinimax pick piece depth (setCell g row c piece) a b
                        false).2)
          validLocations (pick validLocations) ⊥ alpha beta
        (some r.1, r.2)
      else
        let r := pureLoopMin
          (fun c a b =>
            match getNextOpenRow g c with
            | none => none
            | some row =>
                some (pureMinimax pick piece depth
                        (setCell g row c (oppPiece piece)) a b true).2)
          validLocations (pick validLocations) ⊤ alpha beta
        (some r.1, r.2)

/-!
## Basic lemmas
-/

theorem finRange_find?_least {n : ℕ} {p : Fin n → Bool} {r : Fin n}
    (h : (List.finRange n).find? p = some r) :
    p r = true ∧ ∀ r' : Fin n, r' < r → p r' = false := by
  refine ⟨List.find?_some h, fun r' hlt => ?_⟩
  obtain ⟨-, as, bs, heq, hprev⟩ := List.find?_eq_some.mp h
  have hidx : ∀ k (hk : k < n), (List.finRange n)[k]? = some ⟨k, hk⟩ := by
    intro k hk
    rw [List.getElem?_eq_getElem (by simpa using hk)]
    rw [List.getElem_finRange]
    rfl
  have hras : (r : Nat) = as.length := by
    have hlen : as.length < n := by
      have := congrArg List.length heq
      simp [List.length_append] at this
      omega
    have e1 : (List.finRange n)[as.length]? = some r := by
      rw [heq, List.getElem?_append_right (Nat.le_refl _)]
      simp
    rw [hidx as.length hlen] at e1
    exact (congrArg Fin.val (Option.some.inj e1)).symm
  have hmem : r' ∈ as := by
    have hlt' : (r' : Nat) < as.length := by omega
    have e3 : (List.finRange n)[(r' : Nat)]? = some r' := by
      rw [hidx (r' : Nat) r'.isLt]
    rw [heq, List.getElem?_append_left hlt'] at e3
    obtain ⟨hh, heq'⟩ := List.getElem?_eq_some_iff.mp e3
    exact heq' ▸ List.getElem_mem _
  simpa using hprev r' hmem

theorem finRange_find?_eq_some {n : ℕ} {p : Fin n → Bool} {r : Fin n} :
    (List.finRange n).find? p = some r ↔
      p r = true ∧ ∀ r' : Fin n, r' < r → p r' = false := by
  constructor
  · exact finRange_find?_least
  · rintro ⟨hp, hlt⟩
    have hsome : ((List.finRange n).find? p).isSome :=
      List.find?_isSome.mpr ⟨r, List.mem_finRange r, hp⟩
    obtain ⟨m, hm⟩ := Option.isSome_iff_exists.mp hsome
    obtain ⟨hpm, hleast⟩ := finRange_find?_least hm
    rcases lt_trichotomy m r with hc | hc | hc
    · exact absurd hpm (by simp [hlt m hc])
    · rwa [hc] at hm
    · exact absurd hp (by simp [hleast r hc])

theorem setCell_same (g : Grid) (r : Fin ROWS) (c : Fin COLS) (x : Nat) :
    setCell g r c x r c = x := by simp [setCell]

theorem setCell_ne (g : Grid) (r : Fin ROWS) (c : Fin COLS) (x : Nat)
    {r' : Fin ROWS} {c' : Fin COLS} (h : ¬(r' = r ∧ c' = c)) :
    setCell g r c x r' c' = g r' c' := by simp [setCell, h]

theorem setCell_cancel {g : Grid} {r : Fin ROWS} {c : Fin COLS} {x : Nat}
    (h : g r c = EMPTY) : setCell (setCell g r c x) r c EMPTY = g := by
  funext r' c'
  by_cases hrc : r' = r ∧ c' = c
  · obtain ⟨rfl, rfl⟩ := hrc
    simp [setCell, h]
  · simp [setCell, hrc]

theorem cellI_coe (g : Grid) (r : Fin ROWS) (c : Fin COLS) :
    cellI g (r : Int) (c : Int) = some (g r c) := by
  have hr := r.isLt
  have hc := c.isLt
  unfold cellI
  rw [dif_pos (by refine ⟨by omega, by omega, by omega, by omega⟩)]
  have h1 : (⟨((r : Int)).toNat, by omega⟩ : Fin ROWS) = r := by
    apply Fin.ext; simp
  have h2 : (⟨((c : Int)).toNat, by omega⟩ : Fin COLS) = c := by
    apply Fin.ext; simp
  rw [h1, h2]

theorem cellI_setCell (g : Grid) (r : Fin ROWS) (c : Fin COLS) (x : Nat)
    (row col : Int) :
    cellI (setCell g r c x) row col =
      if row = (r : Int) ∧ col = (c : Int) then some x
      else cellI g row col := by
  unfold cellI
  by_cases hb : 0 ≤ row ∧ row < (ROWS : Int) ∧ 0 ≤ col ∧ col < (COLS : Int)
  · rw [dif_pos hb, dif_pos hb]
    by_cases hrc : row = (r : Int) ∧ col = (c : Int)
    · rw [if_pos hrc]
      have h1 : (⟨row.toNat, by omega⟩ : Fin ROWS) = r := by
        apply Fin.ext; simp; omega
      have h2 : (⟨col.toNat, by omega⟩ : Fin COLS) = c := by
        apply Fin.ext; simp; omega
      rw [h1, h2]
      simp [setCell]
    · rw [if_neg hrc]
      congr 1
      apply setCell_ne
      rintro ⟨rfl, rfl⟩
      apply hrc
      constructor <;> simp <;> omega
  · rw [dif_neg hb, dif_neg hb]
    rw [if_neg]
    rintro ⟨rfl, rfl⟩
    exact hb ⟨by omega, by omega, by omega, by omega⟩

theorem checkDirection_eq_true_iff {g : Grid} {r : Fin ROWS} {c : Fin COLS}
    {dy dx : Int} {piece : Nat} :
    checkDirection g r c dy dx piece = true ↔
      ∀ i : Nat, i < WIN_LENGTH →
        cellI g ((r : Int) + i * dy) ((c : Int) + i * dx) = some piece := by
  unfold checkDirection
  rw [List.all_eq_true]
  constructor
  · intro h i hi
    have h2 := h i (List.mem_range.mpr hi)
    cases hcell : cellI g ((r : Int) + i * dy) ((c : Int) + i * dx) with
    | none => rw [hcell] at h2; simp at h2
    | some v =>
        rw [hcell] at h2
        simp at h2
        rw [h2]
  · intro h i hi
    rw [h i (List.mem_range.mp hi)]
    simp

theorem checkWin_eq_true_iff {g : Grid} {piece : Nat} :
    checkWin g piece = true ↔
      ∃ (r : Fin ROWS) (c : Fin COLS) (d : Int × Int), d ∈ DIRECTIONS ∧
        checkDirection g r c d.1 d.2 piece = true := by
  unfold checkWin
  simp only [List.any_eq_true, Bool.and_eq_true, beq_iff_eq]
  constructor
  · rintro ⟨r, -, c, -, -, d, hd, hdir⟩
    exact ⟨r, c, d, hd, hdir⟩
  · rintro ⟨r, c, d, hd, hdir⟩
    refine ⟨r, List.mem_finRange r, c, List.mem_finRange c, ?_, d, hd, hdir⟩
    have h0 := checkDirection_eq_true_iff.mp hdir 0 (by decide)
    simp only [Nat.cast_zero, zero_mul, add_zero] at h0
    rw [cellI_coe] at h0
    exact Option.some.inj h0

/-- A winning line survives any change at a cell that does not currently hold
`piece` (e.g. placing any piece on an empty cell). -/
theorem checkWin_set_preserve {g : Grid} {r : Fin ROWS} {c : Fin COLS}
    {x piece : Nat} (h : g r c ≠ piece) (hw : checkWin g piece = true) :
    checkWin (setCell g r c x) piece = true := by
  rw [checkWin_eq_true_iff] at hw ⊢
  obtain ⟨row, col, d, hd, hdir⟩ := hw
  refine ⟨row, col, d, hd, ?_⟩
  rw [checkDirection_eq_true_iff] at hdir ⊢
  intro i hi
  rw [cellI_setCell]
  rw [if_neg]
  · exact hdir i hi
  · rintro ⟨h1, h2⟩
    have := hdir i hi
    rw [h1, h2, cellI_coe] at this
    exact h (Option.some.inj this)

/-- A winning line for `piece` in a grid where cell `(r, c)` was set to a
value different from `piece` existed already before the change. -/
theorem checkWin_set_reflect {g : Grid} {r : Fin ROWS} {c : Fin COLS}
    {x piece : Nat} (h : piece ≠ x)
    (hw : checkWin (setCell g r c x) piece = true) :
    checkWin g piece = true := by
  rw [checkWin_eq_true_iff] at hw ⊢
  obtain ⟨row, col, d, hd, hdir⟩ := hw
  refine ⟨row, col, d, hd, ?_⟩
  rw [checkDirection_eq_true_iff] at hdir ⊢
  intro i hi
  have := hdir i hi
  rw [cellI_setCell] at this
  by_cases hrc : (row : Int) + i * d.1 = (r : Int) ∧ (col : Int) + i * d.2 = (c : Int)
  · rw [if_pos hrc] at this
    exact absurd (Option.some.inj this).symm h
  · rwa [if_neg hrc] at this

theorem getNextOpenRow_eq_some_iff {g : Grid} {c : Fin COLS} {r : Fin ROWS} :
    getNextOpenRow g c = some r ↔
      (g r c = EMPTY ∧ ∀ r' : Fin ROWS, r' < r → g r' c ≠ EMPTY) := by
  unfold getNextOpenRow
  rw [finRange_find?_eq_some]
  simp only [beq_iff_eq, beq_eq_false_iff_ne, ne_eq]

theorem getNextOpenRow_isSome_iff {g : Grid} {c : Fin COLS} :
    (getNextOpenRow g c).isSome ↔ ∃ r : Fin ROWS, g r c = EMPTY := by
  unfold getNextOpenRow
  rw [List.find?_isSome]
  constructor
  · rintro ⟨r, -, hr⟩
    exact ⟨r, by simpa using hr⟩
  · rintro ⟨r, hr⟩
    exact ⟨r, List.mem_finRange r, by simpa using hr⟩

theorem isValidLocation_coe (g : Grid) (c : Fin COLS) :
    isValidLocation g (c : Nat) = (g 7 c == EMPTY) := by
  unfold isValidLocation
  rw [dif_pos c.isLt]

theorem mem_getValidLocations {g : Grid} {c : Fin COLS} :
    c ∈ getValidLocations g ↔ g 7 c = EMPTY := by
  unfold getValidLocations
  rw [List.mem_filter]
  rw [isValidLocation_coe]
  simp [List.mem_finRange]

/-- On a gravity-consistent grid, a column with any empty cell has an empty
top cell. -/
theorem stacked_top_empty {g : Grid} (hst : Stacked g) {c : Fin COLS}
    {r : Fin ROWS} (hr : g r c = EMPTY) : g 7 c = EMPTY := by
  by_contra htop
  have h7 : ((7 : Fin ROWS) : Nat) = 7 := rfl
  have hlt : (r : Nat) < 8 := r.isLt
  exact hst 7 c htop r (by rw [h7]; omega) hr

/-- On a gravity-consistent grid that is not full there is at least one valid
column. -/
theorem stacked_valid_ne_nil {g : Grid} (hst : Stacked g)
    (hnf : isFull g = false) : getValidLocations g ≠ [] := by
  have : ∃ (r : Fin ROWS) (c : Fin COLS), g r c = EMPTY := by
    by_contra hall
    push_neg at hall
    have : isFull g = true := by
      unfold isFull
      rw [List.all_eq_true]
      intro r _
      rw [List.all_eq_true]
      intro c _
      simp only [Bool.not_eq_true', beq_eq_false_iff_ne, ne_eq]
      exact hall r c
    rw [this] at hnf
    exact Bool.noConfusion hnf
  obtain ⟨r, c, hrc⟩ := this
  intro hnil
  have hmem : c ∈ getValidLocations g := mem_getValidLocations.mpr (stacked_top_empty hst hrc)
  rw [hnil] at hmem
  exact List.not_mem_nil c hmem

/-- Gravity placement preserves gravity consistency. -/
theorem stacked_setCell {g : Grid} (hst : Stacked g) {c : Fin COLS}
    {r : Fin ROWS} (hrow : getNextOpenRow g c = some r) (x : Nat) :
    Stacked (setCell g r c x) := by
  obtain ⟨hempty, hbelow⟩ := getNextOpenRow_eq_some_iff.mp hrow
  have hlow : ∀ r1 : Fin ROWS, ¬(r1 = r) → g r1 c ≠ EMPTY → (r1 : Nat) < (r : Nat) := by
    intro r1 hne1 hval
    by_contra hge
    refine absurd hempty (hst r1 c hval r ?_)
    have : (r1 : Nat) ≠ (r : Nat) := fun hh => hne1 (Fin.ext hh)
    omega
  intro r1 c1 hne r2 hle
  simp only [setCell] at hne ⊢
  by_cases hc1 : c1 = c
  · by_cases hr2 : r2 = r ∧ c1 = c
    · rw [if_pos hr2]
      by_cases hr1 : r1 = r ∧ c1 = c
      · rwa [if_pos hr1] at hne
      · exfalso
        rw [if_neg hr1] at hne
        have hr1ne : ¬ r1 = r := fun hh => hr1 ⟨hh, hc1⟩
        have hlt := hlow r1 hr1ne (hc1 ▸ hne)
        have h2 := congrArg Fin.val hr2.1
        omega
    · rw [if_neg hr2]
      by_cases hr1 : r1 = r ∧ c1 = c
      · have hr2ne : ¬ r2 = r := fun hh => hr2 ⟨hh, hc1⟩
        have h1 := congrArg Fin.val hr1.1
        have hr2lt : r2 < r := by
          rw [Fin.lt_def]
          have : (r2 : Nat) ≠ (r : Nat) := fun hh => hr2ne (Fin.ext hh)
          omega
        rw [hc1]
        exact hbelow r2 hr2lt
      · rw [if_neg hr1] at hne
        exact hst r1 c1 hne r2 hle
  · have hx1 : ¬(r1 = r ∧ c1 = c) := fun hh => hc1 hh.2
    have hx2 : ¬(r2 = r ∧ c1 = c) := fun hh => hc1 hh.2
    rw [if_neg hx1] at hne
    rw [if_neg hx2]
    exact hst r1 c1 hne r2 hle

/-- A valid column always has an open row (the top cell is empty). -/
theorem getNextOpenRow_isSome_of_top {g : Grid} {c : Fin COLS}
    (h : g 7 c = EMPTY) : (getNextOpenRow g c).isSome :=
  getNextOpenRow_isSome_iff.mpr ⟨7, h⟩

/-!
## Claim C5

The claim asserts that `next_open_row(c)` never throws for every integer `c`
and that `is_valid(c)` is true iff `next_open_row(c)` returns a row,
including out-of-range `c`.  This fails: `get_next_open_row` performs no
bounds check, so numpy index semantics leak through — a negative in-range
index wraps around (returning a row while `is_valid` is false) and an index
outside `[-COLS, COLS)` raises `IndexError`.
-/

/-- Claim C5 is false as stated: on the empty board, `next_open_row(-1)`
returns row 0 (numpy wraps the index to column `COLS - 1`) while
`is_valid(-1)` is false, so the claimed equivalence fails at `c = -1`. -/
theorem c5_counterexample :
    getNextOpenRowI emptyGrid (-1) = Except.ok (some 0) ∧
      isValidLocationI emptyGrid (-1) = false := by
  constructor <;> rfl

/-- Claim C5 (corrected): on gravity-consistent grids, for in-range columns
`0 ≤ c < COLS` `next_open_row(c)` returns without throwing the lowest empty
row (or none when the column is full) and `is_valid(c)` is true iff a row is
returned; but for `c < -COLS` or `c ≥ COLS` `next_open_row` raises
`IndexError`, and for `-COLS ≤ c < 0` it inspects the wrapped-around column
`COLS + c` (so it can return a row although `is_valid(c)` is false). -/
theorem c5_next_open_row_contract (g : Grid) (c : Int) (hst : Stacked g) :
    (∀ hc : 0 ≤ c ∧ c < (COLS : Int),
      getNextOpenRowI g c = Except.ok (getNextOpenRow g ⟨c.toNat, by omega⟩) ∧
      (isValidLocationI g c = true ↔
        ∃ r, getNextOpenRow g ⟨c.toNat, by omega⟩ = some r) ∧
      (∀ r : Fin ROWS, getNextOpenRow g ⟨c.toNat, by omega⟩ = some r →
        g r ⟨c.toNat, by omega⟩ = EMPTY ∧
          ∀ r' : Fin ROWS, r' < r → g r' ⟨c.toNat, by omega⟩ ≠ EMPTY)) ∧
    ((c < -(COLS : Int) ∨ (COLS : Int) ≤ c) →
      getNextOpenRowI g c = Except.error ()) ∧
    (∀ hw : -(COLS : Int) ≤ c ∧ c < 0,
      isValidLocationI g c = false ∧
      getNextOpenRowI g c =
        Except.ok (getNextOpenRow g ⟨(c + COLS).toNat, by omega⟩)) := by
  refine ⟨?_, ?_, ?_⟩
  · intro hc
    have hok : getNextOpenRowI g c =
        Except.ok (getNextOpenRow g ⟨c.toNat, by omega⟩) := by
      unfold getNextOpenRowI npColIdx
      rw [dif_pos hc]
    refine ⟨hok, ?_, ?_⟩
    · unfold isValidLocationI
      rw [dif_pos hc]
      constructor
      · intro htop
        have htop' : g 7 ⟨c.toNat, by omega⟩ = EMPTY := by simpa using htop
        have := getNextOpenRow_isSome_of_top htop'
        exact Option.isSome_iff_exists.mp this
      · rintro ⟨r, hr⟩
        have hempty := (getNextOpenRow_eq_some_iff.mp hr).1
        have htop := stacked_top_empty hst hempty
        simpa using htop
    · intro r hr
      exact getNextOpenRow_eq_some_iff.mp hr
  · intro hout
    unfold getNextOpenRowI npColIdx
    rw [dif_neg (by omega), dif_neg (by omega)]
  · intro hw
    constructor
    · unfold isValidLocationI
      rw [dif_neg (by omega)]
    · unfold getNextOpenRowI npColIdx
      rw [dif_neg (by omega), dif_pos hw]

/-- Witness for C5 (corrected): the empty grid is gravity-consistent, and at
the concrete in-range column 0 `next_open_row` succeeds. -/
theorem c5_witness :
    Stacked emptyGrid ∧
      getNextOpenRowI emptyGrid 0 =
        Except.ok (getNextOpenRow emptyGrid ⟨(0 : Int).toNat, by decide⟩) :=
  ⟨by decide,
   ((c5_next_open_row_contract emptyGrid 0 (by decide)).1
      ⟨by norm_num, by norm_num⟩).1⟩

/-!
## Claim C6

The claim's drop sequence puts FOUR of player A's pieces into column 0
(three drops, then one more after B's move), so `check_win(A)` is already
true at the first check — the claimed `false` is wrong.  The scenario is
evaluated on the dimension-faithful 6×7 model.
-/

/-- Claim C6 is false as stated: after dropping A in column 0 three times, B
in column 1 once and A in column 0 once more on the empty 6×7 board, column
0 holds four A pieces, and `check_win(A)` reports `true`, not `false`. -/
theorem c6_counterexample :
    (dropSeqG empty6x7
        [(0, PLAYER1), (0, PLAYER1), (0, PLAYER1), (1, PLAYER2), (0, PLAYER1)]).bind
      (fun g => checkWinG g PLAYER1) ≠ Except.ok false := by
  intro h
  have : (dropSeqG empty6x7
        [(0, PLAYER1), (0, PLAYER1), (0, PLAYER1), (1, PLAYER2), (0, PLAYER1)]).bind
      (fun g => checkWinG g PLAYER1) = Except.ok true := by rfl
  rw [this] at h
  exact Bool.noConfusion (Except.ok.inj h)

/-- Claim C6 (corrected): after the claim's drop sequence `check_win(A)` is
already `true` (the four A pieces in column 0 form a vertical win), and it
remains `true` after one further drop of A in column 0. -/
theorem c6_check_win_scenario :
    (dropSeqG empty6x7
        [(0, PLAYER1), (0, PLAYER1), (0, PLAYER1), (1, PLAYER2), (0, PLAYER1)]).bind
      (fun g => checkWinG g PLAYER1) = Except.ok true ∧
    (dropSeqG empty6x7
        [(0, PLAYER1), (0, PLAYER1), (0, PLAYER1), (1, PLAYER2), (0, PLAYER1),
         (0, PLAYER1)]).bind
      (fun g => checkWinG g PLAYER1) = Except.ok true := by
  constructor <;> rfl

/-!
## The structure of a successful `play_turn`
-/

/-- Anatomy of a successful `play_turn`: the match was in progress, the
column was valid, a row was found, and the resulting state is one of the
win / draw / continue outcomes. -/
theorem playTurn_success {s : Game} {col : Nat}
    (hsucc : (playTurn s col).1 = true) :
    ∃ (hcol : col < COLS) (row : Fin ROWS),
      s.state = GameState.IN_PROGRESS ∧
      s.board.grid 7 ⟨col, hcol⟩ = EMPTY ∧
      getNextOpenRow s.board.grid ⟨col, hcol⟩ = some row ∧
      ((checkWin (setCell s.board.grid row ⟨col, hcol⟩ s.currentPlayer)
          s.currentPlayer = true ∧
        (playTurn s col).2 =
          { s with board := dropPiece s.board row ⟨col, hcol⟩ s.currentPlayer,
                   moveHistory := s.moveHistory ++ [(col, s.currentPlayer)],
                   state := GameState.FINISHED,
                   winner := some s.currentPlayer }) ∨
       (checkWin (setCell s.board.grid row ⟨col, hcol⟩ s.currentPlayer)
          s.currentPlayer = false ∧
        isFull (setCell s.board.grid row ⟨col, hcol⟩ s.currentPlayer) = true ∧
        (playTurn s col).2 =
          { s with board := dropPiece s.board row ⟨col, hcol⟩ s.currentPlayer,
                   moveHistory := s.moveHistory ++ [(col, s.currentPlayer)],
                   state := GameState.FINISHED,
                   winner := none }) ∨
       (checkWin (setCell s.board.grid row ⟨col, hcol⟩ s.currentPlayer)
          s.currentPlayer = false ∧
        isFull (setCell s.board.grid row ⟨col, hcol⟩ s.currentPlayer) = false ∧
        (playTurn s col).2 =
          { s with board := dropPiece s.board row ⟨col, hcol⟩ s.currentPlayer,
                   moveHistory := s.moveHistory ++ [(col, s.currentPlayer)],
                   currentPlayer := switchPlayer s.currentPlayer })) := by
  unfold playTurn at hsucc ⊢
  cases hstate : s.state with
  | FINISHED => rw [hstate] at hsucc; exact Bool.noConfusion hsucc
  | IN_PROGRESS =>
    rw [hstate] at hsucc
    dsimp only at hsucc ⊢
    by_cases hcol : col < COLS
    · rw [dif_pos hcol] at hsucc ⊢
      by_cases htop : s.board.grid 7 ⟨col, hcol⟩ = EMPTY
      · rw [if_pos (by simpa using htop)] at hsucc ⊢
        cases hrow : getNextOpenRow s.board.grid ⟨col, hcol⟩ with
        | none => rw [hrow] at hsucc; exact Bool.noConfusion hsucc
        | some row =>
          rw [hrow] at hsucc
          dsimp only [dropPiece] at hsucc ⊢
          refine ⟨hcol, row, rfl, htop, hrow, ?_⟩
          by_cases hwin : checkWin
              (setCell s.board.grid row ⟨col, hcol⟩ s.currentPlayer)
              s.currentPlayer = true
          · left
            refine ⟨hwin, ?_⟩
            rw [if_pos hwin]
          · rw [if_neg hwin]
            rw [Bool.not_eq_true] at hwin
            by_cases hfull : isFull
                (setCell s.board.grid row ⟨col, hcol⟩ s.currentPlayer) = true
            · right; left
              refine ⟨hwin, hfull, ?_⟩
              rw [if_pos hfull]
            · right; right
              rw [Bool.not_eq_true] at hfull
              refine ⟨hwin, hfull, ?_⟩
              rw [if_neg (by simp [hfull])]
      · rw [if_neg (by simpa using htop)] at hsucc
        exact Bool.noConfusion hsucc
    · rw [dif_neg hcol] at hsucc
      exact Bool.noConfusion hsucc

/-- `switch_player` is an involution on real players. -/
theorem switchPlayer_involutive {p : Nat}
    (hp : p = PLAYER1 ∨ p = PLAYER2) : switchPlayer (switchPlayer p) = p := by
  rcases hp with rfl | rfl <;> rfl

/-!
## Claim C1

`Game.undo` restores the grid and (for in-progress-with-no-winner states)
the status and winner, but it does NOT pop the `(col, player)` move log
(`move_history` is untouched), and instead of setting the active player to
the popped player it blindly toggles `current_player` — which restores the
pre-move player only when the move did not finish the match (a winning or
drawing `play_turn` does not switch the player, so the toggle then moves
away from the pre-move player).
-/

/-- A position in which PLAYER1 is one drop in column 0 away from a vertical
win (three PLAYER1 pieces in column 0, two PLAYER2 pieces in column 1). -/
def c1Grid : Grid := fun r c =>
  if c = 0 ∧ (r : Nat) < 3 then PLAYER1
  else if c = 1 ∧ (r : Nat) < 2 then PLAYER2
  else EMPTY

/-- The match state around `c1Grid`: in progress, PLAYER1 to move. -/
def c1State : Game :=
  { board := { grid := c1Grid, history := [] }
    currentPlayer := PLAYER1
    state := GameState.IN_PROGRESS
    winner := none
    moveHistory := [] }

/-- Claim C1 is false as stated: in `c1State`, `play_turn(0)` succeeds (and
wins for PLAYER1), the following `undo()` succeeds, but the active player
is NOT restored (the blind toggle yields PLAYER2 although PLAYER1 was to
move) and the `(col, player)` move log is NOT popped (the appended entry
remains). -/
theorem c1_counterexample :
    (playTurn c1State 0).1 = true ∧
    (undoGame (playTurn c1State 0).2).1 = true ∧
    (undoGame (playTurn c1State 0).2).2.currentPlayer ≠ c1State.currentPlayer ∧
    (undoGame (playTurn c1State 0).2).2.moveHistory ≠ c1State.moveHistory := by
  refine ⟨by decide, by decide, by decide, by decide⟩

/-- Claim C1 (corrected): for every match state with status `IN_PROGRESS`,
no recorded winner and a real active player, a successful `play_turn(col)`
followed by `undo()` returns true and restores the grid, the board history,
the status and the winner; but the move log is NOT popped — the appended
`(col, player)` entry remains — and the active player becomes the toggle of
the post-move player, which equals the pre-move player exactly when the move
left the match in progress. -/
theorem c1_play_then_undo (s : Game) (col : Nat)
    (hw : s.winner = none)
    (hp : s.currentPlayer = PLAYER1 ∨ s.currentPlayer = PLAYER2)
    (hsucc : (playTurn s col).1 = true) :
    (undoGame (playTurn s col).2).1 = true ∧
    (undoGame (playTurn s col).2).2.board.grid = s.board.grid ∧
    (undoGame (playTurn s col).2).2.board.history = s.board.history ∧
    (undoGame (playTurn s col).2).2.state = s.state ∧
    (undoGame (playTurn s col).2).2.winner = s.winner ∧
    (undoGame (playTurn s col).2).2.moveHistory =
      s.moveHistory ++ [(col, s.currentPlayer)] ∧
    (undoGame (playTurn s col).2).2.currentPlayer =
      switchPlayer ((playTurn s col).2.currentPlayer) ∧
    ((playTurn s col).2.state = GameState.IN_PROGRESS →
      (undoGame (playTurn s col).2).2.currentPlayer = s.currentPlayer) := by
  obtain ⟨⟨g, hist⟩, p, st, w, mh⟩ := s
  dsimp only at hw hp hsucc ⊢
  obtain ⟨hcol, row, hstate, htop, hrow, hcases⟩ := playTurn_success hsucc
  dsimp only at hstate htop hrow hcases
  subst hstate
  subst hw
  have hempty : g row ⟨col, hcol⟩ = EMPTY :=
    (getNextOpenRow_eq_some_iff.mp hrow).1
  have hgrid : setCell (setCell g row ⟨col, hcol⟩ p) row ⟨col, hcol⟩ EMPTY = g :=
    setCell_cancel hempty
  rcases hcases with ⟨hwin, heq⟩ | ⟨hwin, hfull, heq⟩ | ⟨hwin, hfull, heq⟩ <;>
      rw [heq] <;>
      simp [undoGame, undoLastMove, dropPiece, List.getLast?_concat,
        List.dropLast_concat, hgrid]
  · exact switchPlayer_involutive hp

/-- Witness for C1 (corrected): on the fresh match, playing column 0 and
undoing it succeeds. -/
theorem c1_witness :
    freshGame.winner = none ∧
    (freshGame.currentPlayer = PLAYER1 ∨ freshGame.currentPlayer = PLAYER2) ∧
    (playTurn freshGame 0).1 = true ∧
    (undoGame (playTurn freshGame 0).2).1 = true :=
  ⟨rfl, Or.inl rfl, by decide,
   (c1_play_then_undo freshGame 0 rfl (Or.inl rfl) (by decide)).1⟩

/-!
## Claim C9: the FINISHED-status invariant

The inductive invariant carried over all states reachable by
`play_turn`/`undo` from a fresh match.
-/

/-- The invariant: the active player is a real player; in-progress states
have no winner recorded and no win line on the grid; finished states are
either decided (the recorded winner has a win line, the other player has
none, and removing the just-placed piece — the last history entry — leaves
a win-free grid) or drawn (full grid, no win lines, no winner). -/
def GameInv (s : Game) : Prop :=
  (s.currentPlayer = PLAYER1 ∨ s.currentPlayer = PLAYER2) ∧
  (s.state = GameState.IN_PROGRESS →
    s.winner = none ∧
    checkWin s.board.grid PLAYER1 = false ∧
    checkWin s.board.grid PLAYER2 = false) ∧
  (s.state = GameState.FINISHED →
    (∃ p, (p = PLAYER1 ∨ p = PLAYER2) ∧ s.winner = some p ∧
      checkWin s.board.grid p = true ∧
      checkWin s.board.grid (switchPlayer p) = false ∧
      ∃ (rc : Fin ROWS × Fin COLS) (rest : List (Fin ROWS × Fin COLS)),
        s.board.history = rest ++ [rc] ∧
        checkWin (setCell s.board.grid rc.1 rc.2 EMPTY) PLAYER1 = false ∧
        checkWin (setCell s.board.grid rc.1 rc.2 EMPTY) PLAYER2 = false) ∨
    (s.winner = none ∧ isFull s.board.grid = true ∧
      checkWin s.board.grid PLAYER1 = false ∧
      checkWin s.board.grid PLAYER2 = false))

theorem gameInv_fresh : GameInv freshGame := by
  refine ⟨Or.inl rfl, fun _ => ⟨rfl, by decide, by decide⟩, fun h => ?_⟩
  exact absurd h (by decide)

/-- A failed `play_turn` leaves the state untouched. -/
theorem playTurn_fail {s : Game} {col : Nat}
    (h : (playTurn s col).1 = false) : (playTurn s col).2 = s := by
  unfold playTurn at h ⊢
  cases hstate : s.state with
  | FINISHED => rfl
  | IN_PROGRESS =>
    rw [hstate] at h
    dsimp only at h ⊢
    by_cases hcol : col < COLS
    · rw [dif_pos hcol] at h ⊢
      by_cases htop : s.board.grid 7 ⟨col, hcol⟩ = EMPTY
      · rw [if_pos (by simpa using htop)] at h ⊢
        cases hrow : getNextOpenRow s.board.grid ⟨col, hcol⟩ with
        | none => rfl
        | some row =>
          rw [hrow] at h
          dsimp only at h
          split at h <;> first
            | exact Bool.noConfusion h
            | (split at h <;> exact Bool.noConfusion h)
      · rw [if_neg (by simpa using htop)]
    · rw [dif_neg hcol]

/-- One Boolean contrapositive step: a win in the updated grid for a piece
different from the placed one reflects to the old grid. -/
theorem checkWin_set_false {g : Grid} {r : Fin ROWS} {c : Fin COLS}
    {x piece : Nat} (hne : piece ≠ x) (hnw : checkWin g piece = false) :
    checkWin (setCell g r c x) piece = false := by
  cases hb : checkWin (setCell g r c x) piece with
  | false => rfl
  | true =>
    have := checkWin_set_reflect hne hb
    rw [this] at hnw
    exact Bool.noConfusion hnw

theorem gameInv_play (s : Game) (col : Nat) (h : GameInv s) :
    GameInv (playTurn s col).2 := by
  by_cases hsucc : (playTurn s col).1 = true
  case neg =>
    have hf : (playTurn s col).1 = false := by
      cases hb : (playTurn s col).1 with
      | false => rfl
      | true => exact absurd hb hsucc
    rw [playTurn_fail hf]
    exact h
  case pos =>
    obtain ⟨hcol, row, hstate, htop, hrow, hcases⟩ := playTurn_success hsucc
    obtain ⟨hp, hinprog, -⟩ := h
    obtain ⟨hw, hnw1, hnw2⟩ := hinprog hstate
    have hempty : s.board.grid row ⟨col, hcol⟩ = EMPTY :=
      (getNextOpenRow_eq_some_iff.mp hrow).1
    have hothernw : checkWin s.board.grid (switchPlayer s.currentPlayer) = false := by
      rcases hp with h1 | h1 <;> rw [h1] <;> first
        | exact hnw2
        | exact hnw1
  -- the other player's absence of a win carries over to the updated grid
    have hotherne : switchPlayer s.currentPlayer ≠ s.currentPlayer := by
      rcases hp with h1 | h1 <;> rw [h1] <;> decide
    have hothernew : checkWin
        (setCell s.board.grid row ⟨col, hcol⟩ s.currentPlayer)
        (switchPlayer s.currentPlayer) = false :=
      checkWin_set_false hotherne hothernw
    have hclear : setCell (setCell s.board.grid row ⟨col, hcol⟩ s.currentPlayer)
        row ⟨col, hcol⟩ EMPTY = s.board.grid := setCell_cancel hempty
    rcases hcases with ⟨hwin, heq⟩ | ⟨hwin, hfull, heq⟩ | ⟨hwin, hfull, heq⟩ <;>
        rw [heq]
    · refine ⟨hp, fun hctr => absurd hctr (by simp), fun _ => Or.inl ?_⟩
      refine ⟨s.currentPlayer, hp, rfl, ?_, ?_,
        (row, ⟨col, hcol⟩), s.board.history, ?_, ?_, ?_⟩
      · simpa [dropPiece] using hwin
      · simpa [dropPiece] using hothernew
      · simp [dropPiece]
      · simp only [dropPiece]
        rw [hclear]
        exact hnw1
      · simp only [dropPiece]
        rw [hclear]
        exact hnw2
    · refine ⟨hp, fun hctr => absurd hctr (by simp), fun _ => Or.inr ?_⟩
      refine ⟨rfl, by simpa [dropPiece] using hfull, ?_, ?_⟩ <;>
          simp only [dropPiece] <;>
          rcases hp with h1 | h1
      · rw [← h1]; exact hwin
      · rw [show PLAYER1 = switchPlayer s.currentPlayer by rw [h1]; rfl]
        exact hothernew
      · rw [show PLAYER2 = switchPlayer s.currentPlayer by rw [h1]; rfl]
        exact hothernew
      · rw [← h1]; exact hwin
    · refine ⟨?_, fun _ => ⟨by simpa using hw, ?_, ?_⟩, fun hctr => ?_⟩
      · rcases hp with h1 | h1 <;> rw [h1] <;> simp [switchPlayer, PLAYER1, PLAYER2]
      · rcases hp with h1 | h1
        · rw [show PLAYER1 = s.currentPlayer from h1.symm]
          simpa [dropPiece] using hwin
        · rw [show PLAYER1 = switchPlayer s.currentPlayer by rw [h1]; rfl]
          simpa [dropPiece] using hothernew
      · rcases hp with h1 | h1
        · rw [show PLAYER2 = switchPlayer s.currentPlayer by rw [h1]; rfl]
          simpa [dropPiece] using hothernew
        · rw [show PLAYER2 = s.currentPlayer from h1.symm]
          simpa [dropPiece] using hwin
      · have : s.state = GameState.FINISHED := by simpa using hctr
        rw [hstate] at this
        exact GameState.noConfusion this

theorem gameInv_undo (s : Game) (h : GameInv s) : GameInv (undoGame s).2 := by
  obtain ⟨hp, hinprog, hfin⟩ := h
  unfold undoGame undoLastMove
  cases hlast : s.board.history.getLast? with
  | none =>
    dsimp only
    exact ⟨hp, hinprog, hfin⟩
  | some rc =>
    simp only [eq_self_iff_true, if_true]
    have hptoggle : switchPlayer s.currentPlayer = PLAYER1 ∨
        switchPlayer s.currentPlayer = PLAYER2 := by
      rcases hp with h1 | h1 <;> rw [h1] <;> simp [switchPlayer, PLAYER1, PLAYER2]
    cases hstate : s.state with
    | IN_PROGRESS =>
      obtain ⟨hw, hnw1, hnw2⟩ := hinprog hstate
      dsimp only
      refine ⟨hptoggle, fun _ => ⟨hw, ?_, ?_⟩, fun hctr => ?_⟩
      · exact checkWin_set_false (by decide) hnw1
      · exact checkWin_set_false (by decide) hnw2
      · simp at hctr
    | FINISHED =>
      dsimp only
      refine ⟨hptoggle, fun _ => ⟨rfl, ?_, ?_⟩, fun hctr => ?_⟩
      · rcases hfin hstate with ⟨p, hp', hw', hcw, hcother, rc', rest, hhist, hc1, hc2⟩ |
            ⟨hw', hfull, hc1, hc2⟩
        · have : rc = rc' := by
            rw [hhist, List.getLast?_concat] at hlast
            exact (Option.some.inj hlast).symm
          rw [this]
          exact hc1
        · exact checkWin_set_false (by decide) hc1
      · rcases hfin hstate with ⟨p, hp', hw', hcw, hcother, rc', rest, hhist, hc1, hc2⟩ |
            ⟨hw', hfull, hc1, hc2⟩
        · have : rc = rc' := by
            rw [hhist, List.getLast?_concat] at hlast
            exact (Option.some.inj hlast).symm
          rw [this]
          exact hc2
        · exact checkWin_set_false (by decide) hc2
      · exact GameState.noConfusion hctr

theorem gameInv_reachable {s : Game} (h : Reachable s) : GameInv s := by
  induction h with
  | fresh => exact gameInv_fresh
  | play s' col _ ih => exact gameInv_play s' col ih
  | undo s' _ ih => exact gameInv_undo s' ih

/-- Claim C9: in every state reachable from a fresh match by `play_turn` and
`undo` calls, `status = FINISHED` implies either exactly one player has a win
line and the recorded winner is that player, or the grid is full with no win
line for either player and no winner is recorded. -/
theorem c9_finished_invariant (s : Game) (hr : Reachable s)
    (hf : s.state = GameState.FINISHED) :
    (∃ p, (p = PLAYER1 ∨ p = PLAYER2) ∧ s.winner = some p ∧
      checkWin s.board.grid p = true ∧
      checkWin s.board.grid (switchPlayer p) = false) ∨
    (s.winner = none ∧ isFull s.board.grid = true ∧
      checkWin s.board.grid PLAYER1 = false ∧
      checkWin s.board.grid PLAYER2 = false) := by
  obtain ⟨-, -, hfin⟩ := gameInv_reachable hr
  rcases hfin hf with ⟨p, hp', hw', hcw, hcother, -, -, -, -, -⟩ | hdraw
  · exact Or.inl ⟨p, hp', hw', hcw, hcother⟩
  · exact Or.inr hdraw

/-- A reachable finished position: PLAYER1 stacks column 0 to a vertical win
while PLAYER2 answers in column 1. -/
def c9Demo : Game :=
  (playTurn (playTurn (playTurn (playTurn (playTurn (playTurn
    (playTurn freshGame 0).2 1).2 0).2 1).2 0).2 1).2 0).2

/-- Witness for C9: `c9Demo` is reachable and finished, and the invariant
holds there. -/
theorem c9_witness :
    c9Demo.state = GameState.FINISHED ∧
    ((∃ p, (p = PLAYER1 ∨ p = PLAYER2) ∧ c9Demo.winner = some p ∧
      checkWin c9Demo.board.grid p = true ∧
      checkWin c9Demo.board.grid (switchPlayer p) = false) ∨
    (c9Demo.winner = none ∧ isFull c9Demo.board.grid = true ∧
      checkWin c9Demo.board.grid PLAYER1 = false ∧
      checkWin c9Demo.board.grid PLAYER2 = false)) := by
  have hreach : Reachable c9Demo :=
    Reachable.play _ 0 (Reachable.play _ 1 (Reachable.play _ 0
      (Reachable.play _ 1 (Reachable.play _ 0 (Reachable.play _ 1
        (Reachable.play _ 0 Reachable.fresh))))))
  exact ⟨by decide, c9_finished_invariant c9Demo hreach (by decide)⟩

/-!
## Claim C8: the heuristic evaluation

Spec-side definition of the evaluation, following the table of §4.3: the
window score depends on the exact (own, opponent, empty) composition, plus 3
for every occurrence of the piece in the exact middle column.
-/

/-- The window score table of the spec: +100 for 4 own; +5 for 3 own and 1
empty; +2 for 2 own and 2 empty; -4 for 3 opponent and 1 empty; 0 for any
other mix. -/
def specWindowScore (piece : Nat) (w : List Nat) : Int :=
  let own := w.count piece
  let opp := w.count (oppPiece piece)
  let emp := w.count EMPTY
  if own = 4 ∧ opp = 0 ∧ emp = 0 then 100
  else if own = 3 ∧ opp = 0 ∧ emp = 1 then 5
  else if own = 2 ∧ opp = 0 ∧ emp = 2 then 2
  else if own = 0 ∧ opp = 3 ∧ emp = 1 then -4
  else 0

/-- Spec-side evaluation: sum of the window score over every contiguous
4-cell window along every row, every column and both diagonal directions,
plus 3 for every occurrence of the piece in the exact middle column
(column `COLS / 2 = 4`). -/
def specEvaluate (g : Grid) (piece : Nat) : Int :=
  (((List.finRange ROWS).map fun r =>
      (((List.finRange 6).map fun c =>
        specWindowScore piece
          ((List.finRange 4).map fun i =>
            g r ⟨c.val + i.val, by show c.val + i.val < 9; omega⟩)).sum)).sum)
  + (((List.finRange COLS).map fun c =>
      (((List.finRange 5).map fun r =>
        specWindowScore piece
          ((List.finRange 4).map fun i =>
            g ⟨r.val + i.val, by show r.val + i.val < 8; omega⟩ c)).sum)).sum)
  + (((List.finRange 5).map fun r =>
      (((List.finRange 6).map fun c =>
        specWindowScore piece
          ((List.finRange 4).map fun i =>
            g ⟨r.val + i.val, by show r.val + i.val < 8; omega⟩
              ⟨c.val + i.val, by show c.val + i.val < 9; omega⟩)).sum)).sum)
  + (((List.finRange 5).map fun r =>
      (((List.finRange 6).map fun c =>
        specWindowScore piece
          ((List.finRange 4).map fun i =>
            g ⟨r.val + 3 - i.val, by show r.val + 3 - i.val < 8; omega⟩
              ⟨c.val + i.val, by show c.val + i.val < 9; omega⟩)).sum)).sum)
  + 3 * (((List.finRange ROWS).filter fun r => g r 4 = piece).length : Int)

/-- At most `w.length` cells are accounted for by the three pairwise
distinct values counted by the evaluation. -/
theorem count_three_le {piece : Nat} (w : List Nat)
    (hp : piece = PLAYER1 ∨ piece = PLAYER2) :
    w.count piece + w.count (oppPiece piece) + w.count EMPTY ≤ w.length := by
  have hne1 : piece ≠ oppPiece piece := by rcases hp with rfl | rfl <;> decide
  have hne2 : piece ≠ EMPTY := by rcases hp with rfl | rfl <;> decide
  have hne3 : oppPiece piece ≠ EMPTY := by rcases hp with rfl | rfl <;> decide
  induction w with
  | nil => simp
  | cons a t ih =>
    simp only [List.count_cons, List.length_cons, beq_iff_eq]
    split_ifs <;> omega

/-- On 4-cell windows, the source's `evaluate_window` computes exactly the
spec's window-score table. -/
theorem evaluateWindow_eq_spec {piece : Nat} {w : List Nat}
    (hp : piece = PLAYER1 ∨ piece = PLAYER2) (hlen : w.length = 4) :
    evaluateWindow piece w = specWindowScore piece w := by
  have hsum := count_three_le w hp
  rw [hlen] at hsum
  unfold evaluateWindow specWindowScore
  dsimp only
  split_ifs <;> omega

/-- Claim C8: the heuristic evaluation equals the spec's sum of window
scores over every row, column and both diagonal directions plus 3 per piece
in the exact middle column; and during search, a depth-exhausted
non-terminal node is valued by `evaluate(node, engine_piece)` at maximizing
and minimizing nodes alike. -/
theorem c8_score_position (g : Grid) (piece : Nat)
    (hp : piece = PLAYER1 ∨ piece = PLAYER2) :
    scorePosition g piece = specEvaluate g piece ∧
    (∀ (pick : List (Fin COLS) → Fin COLS) (alpha beta : EVal) (m : Bool),
      isTerminalNode piece g = false →
      (minimax pick piece 0 g alpha beta m).2 =
        toEVal (scorePosition g piece)) := by
  constructor
  · have hw : ∀ w : List Nat, w.length = 4 →
        evaluateWindow piece w = specWindowScore piece w :=
      fun w hl => evaluateWindow_eq_spec hp hl
    unfold scorePosition specEvaluate
    have h1 : ∀ (r : Fin ROWS),
        (((List.finRange 6).map fun c =>
          evaluateWindow piece
            ((List.finRange 4).map fun i =>
              g r ⟨c.val + i.val, by show c.val + i.val < 9; omega⟩)).sum) =
        (((List.finRange 6).map fun c =>
          specWindowScore piece
            ((List.finRange 4).map fun i =>
              g r ⟨c.val + i.val, by show c.val + i.val < 9; omega⟩)).sum) := by
      intro r
      congr 1
      exact List.map_congr_left fun c _ => hw _ (by simp)
    have h2 : ∀ (c : Fin COLS),
        (((List.finRange 5).map fun r =>
          evaluateWindow piece
            ((List.finRange 4).map fun i =>
              g ⟨r.val + i.val, by show r.val + i.val < 8; omega⟩ c)).sum) =
        (((List.finRange 5).map fun r =>
          specWindowScore piece
            ((List.finRange 4).map fun i =>
              g ⟨r.val + i.val, by show r.val + i.val < 8; omega⟩ c)).sum) := by
      intro c
      congr 1
      exact List.map_congr_left fun r _ => hw _ (by simp)
    have h3 : ∀ (r : Fin 5),
        (((List.finRange 6).map fun c =>
          evaluateWindow piece
            ((List.finRange 4).map fun i =>
              g ⟨r.val + i.val, by show r.val + i.val < 8; omega⟩
                ⟨c.val + i.val, by show c.val + i.val < 9; omega⟩)).sum) =
        (((List.finRange 6).map fun c =>
          specWindowScore piece
            ((List.finRange 4).map fun i =>
              g ⟨r.val + i.val, by show r.val + i.val < 8; omega⟩
                ⟨c.val + i.val, by show c.val + i.val < 9; omega⟩)).sum) := by
      intro r
      congr 1
      exact List.map_congr_left fun c _ => hw _ (by simp)
    have h4 : ∀ (r : Fin 5),
        (((List.finRange 6).map fun c =>
          evaluateWindow piece
            ((List.finRange 4).map fun i =>
              g ⟨r.val + 3 - i.val, by show r.val + 3 - i.val < 8; omega⟩
                ⟨c.val + i.val, by show c.val + i.val < 9; omega⟩)).sum) =
        (((List.finRange 6).map fun c =>
          specWindowScore piece
            ((List.finRange 4).map fun i =>
              g ⟨r.val + 3 - i.val, by show r.val + 3 - i.val < 8; omega⟩
                ⟨c.val + i.val, by show c.val + i.val < 9; omega⟩)).sum) := by
      intro r
      congr 1
      exact List.map_congr_left fun c _ => hw _ (by simp)
    rw [List.map_congr_left fun r _ => h1 r,
        List.map_congr_left fun c _ => h2 c,
        List.map_congr_left fun r _ => h3 r,
        List.map_congr_left fun r _ => h4 r]
    ring
  · intro pick alpha beta m hterm
    show (minimaxBase piece g).2 = toEVal (scorePosition g piece)
    unfold minimaxBase
    rw [if_neg (by rw [hterm]; exact Bool.noConfusion)]

/-- Witness for C8: evaluated at the concrete position `c1Grid` for the
engine piece `PLAYER2`. -/
theorem c8_witness :
    (PLAYER2 = PLAYER1 ∨ PLAYER2 = PLAYER2) ∧
    scorePosition c1Grid PLAYER2 = specEvaluate c1Grid PLAYER2 :=
  ⟨Or.inr rfl, (c8_score_position c1Grid PLAYER2 (Or.inr rfl)).1⟩

/-!
## Claim C3: terminal values of `minimax`

A decided node is valued `±100000` at any depth; but a DRAW node is valued
`0` by the code, not by the heuristic as the claim states; the heuristic is
used only on depth-exhausted non-terminal nodes.
-/

/-- On a finished node, `minimax` returns its base value at any depth. -/
theorem minimax_of_terminal {pick : List (Fin COLS) → Fin COLS} {piece : Nat}
    {g : Grid} (h : isTerminalNode piece g = true) (d : Nat)
    (alpha beta : EVal) (m : Bool) :
    minimax pick piece d g alpha beta m = minimaxBase piece g := by
  cases d with
  | zero => rfl
  | succ d => simp only [minimax, h, if_true]

/-- The deterministic stand-in for `random.choice` used in closed
evaluations (the result never depends on it, see claim C10). -/
def headPick : List (Fin COLS) → Fin COLS := fun l => l.headD 0

/-- A full 8×9 grid with no four-in-a-row for either player (cells striped
by `(row / 2 + col) % 2`). -/
def fullDraw : Grid := fun r c =>
  if ((r.val / 2) + c.val) % 2 == 0 then PLAYER1 else PLAYER2

/-- Claim C3 is false as stated: `fullDraw` is a draw node (full, no
winner), where `minimax` returns 0 while the heuristic
`evaluate(node, engine_piece)` is 12 — the draw value is a constant 0, not
the heuristic. -/
theorem c3_counterexample :
    isFull fullDraw = true ∧
    checkWin fullDraw PLAYER1 = false ∧
    checkWin fullDraw PLAYER2 = false ∧
    (minimax headPick PLAYER2 3 fullDraw ⊥ ⊤ true).2 = toEVal 0 ∧
    scorePosition fullDraw PLAYER2 = 12 ∧
    toEVal 0 ≠ toEVal 12 := by
  refine ⟨by decide, by decide, by decide, by decide, by decide, by decide⟩

/-- Claim C3 (corrected): at every node, if the engine's piece has a win the
value is +100000 (any depth); if only the opponent's piece has a win it is
-100000; a finished position with no winner (draw) is valued 0; and only a
depth-exhausted non-finished node is valued by the heuristic
`evaluate(node, engine_piece)`. -/
theorem c3_minimax_values (pick : List (Fin COLS) → Fin COLS) (piece : Nat)
    (g : Grid) (depth : Nat) (alpha beta : EVal) (m : Bool) :
    (checkWin g piece = true →
      (minimax pick piece depth g alpha beta m).2 = toEVal 100000) ∧
    (checkWin g piece = false → checkWin g (oppPiece piece) = true →
      (minimax pick piece depth g alpha beta m).2 = toEVal (-100000)) ∧
    (isTerminalNode piece g = true → checkWin g piece = false →
      checkWin g (oppPiece piece) = false →
      (minimax pick piece depth g alpha beta m).2 = toEVal 0) ∧
    (isTerminalNode piece g = false →
      (minimax pick piece 0 g alpha beta m).2 =
        toEVal (scorePosition g piece)) := by
  refine ⟨?_, ?_, ?_, ?_⟩
  · intro hwin
    have hterm : isTerminalNode piece g = true := by
      unfold isTerminalNode
      rw [hwin]
      rfl
    rw [minimax_of_terminal hterm]
    unfold minimaxBase
    rw [if_pos hterm, if_pos hwin]
  · intro hwin hopp
    have hterm : isTerminalNode piece g = true := by
      unfold isTerminalNode
      rw [hwin, hopp]
      rfl
    rw [minimax_of_terminal hterm]
    unfold minimaxBase
    rw [if_pos hterm, if_neg (by rw [hwin]; exact Bool.noConfusion),
      if_pos hopp]
  · intro hterm hwin hopp
    rw [minimax_of_terminal hterm]
    unfold minimaxBase
    rw [if_pos hterm, if_neg (by rw [hwin]; exact Bool.noConfusion),
      if_neg (by rw [hopp]; exact Bool.noConfusion)]
  · intro hterm
    show (minimaxBase piece g).2 = _
    unfold minimaxBase
    rw [if_neg (by rw [hterm]; exact Bool.noConfusion)]

/-- Witness for C3 (corrected): on the concrete draw grid the third case
applies and yields value 0. -/
theorem c3_witness :
    isTerminalNode PLAYER2 fullDraw = true ∧
    (minimax headPick PLAYER2 5 fullDraw ⊥ ⊤ true).2 = toEVal 0 :=
  ⟨by decide,
   (c3_minimax_values headPick PLAYER2 fullDraw 5 ⊥ ⊤ true).2.2.1
     (by decide) (by decide) (by decide)⟩

/-!
## Search-loop infrastructure (claims C2, C7, C10)
-/

theorem bot_lt_toEVal (z : Int) : (⊥ : EVal) < toEVal z :=
  WithBot.bot_lt_coe _

theorem toEVal_lt_top (z : Int) : toEVal z < (⊤ : EVal) := by
  show ((z : WithTop Int) : WithBot (WithTop Int)) <
    ((⊤ : WithTop Int) : WithBot (WithTop Int))
  exact WithBot.coe_lt_coe.mpr (WithTop.coe_lt_top z)

theorem toEVal_ne_bot (z : Int) : toEVal z ≠ (⊥ : EVal) :=
  WithBot.coe_ne_bot

/-- The per-column child evaluation of the maximizing branch of `minimax`:
find the open row, drop the engine's piece on a copy, recurse as minimizer;
`none` models the `row is None: continue` guard. -/
def maxChild (pick : List (Fin COLS) → Fin COLS) (piece : Nat) (d : Nat)
    (g : Grid) : Fin COLS → EVal → EVal → Option EVal :=
  fun c a b =>
    match getNextOpenRow g c with
    | none => none
    | some row => some (minimax pick piece d (setCell g row c piece) a b false).2

/-- The per-column child evaluation of the minimizing branch of `minimax`:
drop the opponent's piece and recurse as maximizer. -/
def minChild (pick : List (Fin COLS) → Fin COLS) (piece : Nat) (d : Nat)
    (g : Grid) : Fin COLS → EVal → EVal → Option EVal :=
  fun c a b =>
    match getNextOpenRow g c with
    | none => none
    | some row =>
        some (minimax pick piece d (setCell g row c (oppPiece piece)) a b true).2

theorem minimax_succ_max (pick : List (Fin COLS) → Fin COLS) (piece : Nat)
    (d : Nat) (g : Grid) (alpha beta : EVal)
    (hterm : isTerminalNode piece g = false) :
    minimax pick piece (d + 1) g alpha beta true =
      (some (abLoopMax (maxChild pick piece d g) (getValidLocations g)
          (pick (getValidLocations g)) ⊥ alpha beta).1,
       (abLoopMax (maxChild pick piece d g) (getValidLocations g)
          (pick (getValidLocations g)) ⊥ alpha beta).2) := by
  show (if isTerminalNode piece g then minimaxBase piece g else _) = _
  rw [if_neg (by rw [hterm]; exact Bool.noConfusion)]
  rfl

theorem minimax_succ_min (pick : List (Fin COLS) → Fin COLS) (piece : Nat)
    (d : Nat) (g : Grid) (alpha beta : EVal)
    (hterm : isTerminalNode piece g = false) :
    minimax pick piece (d + 1) g alpha beta false =
      (some (abLoopMin (minChild pick piece d g) (getValidLocations g)
          (pick (getValidLocations g)) ⊤ alpha beta).1,
       (abLoopMin (minChild pick piece d g) (getValidLocations g)
          (pick (getValidLocations g)) ⊤ alpha beta).2) := by
  show (if isTerminalNode piece g then minimaxBase piece g else _) = _
  rw [if_neg (by rw [hterm]; exact Bool.noConfusion)]
  rfl

/-- The maximizing loop is point-to-point congruent in the child
function. -/
theorem abLoopMax_congr {child₁ child₂ : Fin COLS → EVal → EVal → Option EVal}
    (hc : ∀ c a b, child₁ c a b = child₂ c a b) :
    ∀ (l : List (Fin COLS)) (col0 : Fin COLS) (v0 alpha beta : EVal),
      abLoopMax child₁ l col0 v0 alpha beta =
        abLoopMax child₂ l col0 v0 alpha beta := by
  intro l
  induction l with
  | nil => intro col0 v0 a b; rfl
  | cons c rest ih =>
    intro col0 v0 a b
    simp only [abLoopMax]
    rw [hc c a b]
    cases h2 : child₂ c a b with
    | none => exact ih col0 v0 a b
    | some ns =>
      dsimp only
      split <;> split <;> first
        | rfl
        | exact ih _ _ _ _

/-- Dual congruence for the minimizing loop. -/
theorem abLoopMin_congr {child₁ child₂ : Fin COLS → EVal → EVal → Option EVal}
    (hc : ∀ c a b, child₁ c a b = child₂ c a b) :
    ∀ (l : List (Fin COLS)) (col0 : Fin COLS) (v0 alpha beta : EVal),
      abLoopMin child₁ l col0 v0 alpha beta =
        abLoopMin child₂ l col0 v0 alpha beta := by
  intro l
  induction l with
  | nil => intro col0 v0 a b; rfl
  | cons c rest ih =>
    intro col0 v0 a b
    simp only [abLoopMin]
    rw [hc c a b]
    cases h2 : child₂ c a b with
    | none => exact ih col0 v0 a b
    | some ns =>
      dsimp only
      split <;> split <;> first
        | rfl
        | exact ih _ _ _ _

/-- The column returned by the maximizing loop is the initial default or one
of the looped-over columns. -/
theorem abLoopMax_col_mem (child : Fin COLS → EVal → EVal → Option EVal) :
    ∀ (l : List (Fin COLS)) (col0 : Fin COLS) (v0 alpha beta : EVal),
      (abLoopMax child l col0 v0 alpha beta).1 ∈ col0 :: l := by
  intro l
  induction l with
  | nil => intro col0 v0 a b; exact List.mem_singleton.mpr rfl
  | cons c rest ih =>
    intro col0 v0 a b
    simp only [abLoopMax]
    cases h2 : child c a b with
    | none =>
      have := ih col0 v0 a b
      rcases List.mem_cons.mp this with h | h
      · exact List.mem_cons.mpr (Or.inl h)
      · exact List.mem_cons.mpr (Or.inr (List.mem_cons.mpr (Or.inr h)))
    | some ns =>
      dsimp only
      split
      · split
        · exact List.mem_cons.mpr (Or.inr (List.mem_cons.mpr (Or.inl rfl)))
        · rcases List.mem_cons.mp (ih _ _ _ _) with h | h
          · exact List.mem_cons.mpr (Or.inr (List.mem_cons.mpr (Or.inl h)))
          · exact List.mem_cons.mpr (Or.inr (List.mem_cons.mpr (Or.inr h)))
      · split
        · exact List.mem_cons.mpr (Or.inl rfl)
        · rcases List.mem_cons.mp (ih _ _ _ _) with h | h
          · exact List.mem_cons.mpr (Or.inl h)
          · exact List.mem_cons.mpr (Or.inr (List.mem_cons.mpr (Or.inr h)))

/-- If every looped-over column has a finite, defined child value, the
maximizing loop produces a finite value (the initial `-inf` is overwritten
by the first child). -/
theorem abLoopMax_finite {child : Fin COLS → EVal → EVal → Option EVal} :
    ∀ (l : List (Fin COLS)) (col0 : Fin COLS) (v0 alpha beta : EVal),
      (∀ c ∈ l, ∀ a b, ∃ z : Int, child c a b = some (toEVal z)) →
      ((∃ z : Int, v0 = toEVal z) ∨ (v0 = ⊥ ∧ l ≠ [])) →
      ∃ z : Int, (abLoopMax child l col0 v0 alpha beta).2 = toEVal z := by
  intro l
  induction l with
  | nil =>
    intro col0 v0 a b _ hv
    rcases hv with ⟨z, hz⟩ | ⟨-, hne⟩
    · exact ⟨z, hz⟩
    · exact absurd rfl hne
  | cons c rest ih =>
    intro col0 v0 a b hch hv
    obtain ⟨z, hz⟩ := hch c (List.mem_cons_self c rest) a b
    simp only [abLoopMax, hz]
    have hch' : ∀ c' ∈ rest, ∀ a' b', ∃ z' : Int, child c' a' b' = some (toEVal z') :=
      fun c' hc' => hch c' (List.mem_cons.mpr (Or.inr hc'))
    split
    · split
      · exact ⟨z, rfl⟩
      · exact ih _ _ _ _ hch' (Or.inl ⟨z, rfl⟩)
    · have hv0 : ∃ z0 : Int, v0 = toEVal z0 := by
        rcases hv with ⟨z0, hz0⟩ | ⟨hbot, -⟩
        · exact ⟨z0, hz0⟩
        · next hnot => exact absurd (hbot ▸ bot_lt_toEVal z) hnot
      split
      · exact hv0
      · exact ih _ _ _ _ hch' (Or.inl hv0)

/-- Dual: the minimizing loop produces a finite value (the initial `+inf`
is overwritten by the first child). -/
theorem abLoopMin_finite {child : Fin COLS → EVal → EVal → Option EVal} :
    ∀ (l : List (Fin COLS)) (col0 : Fin COLS) (v0 alpha beta : EVal),
      (∀ c ∈ l, ∀ a b, ∃ z : Int, child c a b = some (toEVal z)) →
      ((∃ z : Int, v0 = toEVal z) ∨ (v0 = ⊤ ∧ l ≠ [])) →
      ∃ z : Int, (abLoopMin child l col0 v0 alpha beta).2 = toEVal z := by
  intro l
  induction l with
  | nil =>
    intro col0 v0 a b _ hv
    rcases hv with ⟨z, hz⟩ | ⟨-, hne⟩
    · exact ⟨z, hz⟩
    · exact absurd rfl hne
  | cons c rest ih =>
    intro col0 v0 a b hch hv
    obtain ⟨z, hz⟩ := hch c (List.mem_cons_self c rest) a b
    simp only [abLoopMin, hz]
    have hch' : ∀ c' ∈ rest, ∀ a' b', ∃ z' : Int, child c' a' b' = some (toEVal z') :=
      fun c' hc' => hch c' (List.mem_cons.mpr (Or.inr hc'))
    split
    · split
      · exact ⟨z, rfl⟩
      · exact ih _ _ _ _ hch' (Or.inl ⟨z, rfl⟩)
    · have hv0 : ∃ z0 : Int, v0 = toEVal z0 := by
        rcases hv with ⟨z0, hz0⟩ | ⟨htop, -⟩
        · exact ⟨z0, hz0⟩
        · next hnot => exact absurd (htop ▸ toEVal_lt_top z) hnot
      split
      · exact hv0
      · exact ih _ _ _ _ hch' (Or.inl hv0)

/-- With defined finite children, the maximizing loop's result does not
depend on the initial default column: the first child overwrites it. -/
theorem abLoopMax_col0_irrel {child : Fin COLS → EVal → EVal → Option EVal}
    (l : List (Fin COLS)) (col0 col0' : Fin COLS) (alpha beta : EVal)
    (hch : ∀ c ∈ l, ∀ a b, ∃ z : Int, child c a b = some (toEVal z))
    (hne : l ≠ []) :
    abLoopMax child l col0 ⊥ alpha beta =
      abLoopMax child l col0' ⊥ alpha beta := by
  cases l with
  | nil => exact absurd rfl hne
  | cons c rest =>
    obtain ⟨z, hz⟩ := hch c (List.mem_cons_self c rest) alpha beta
    simp only [abLoopMax, hz]
    simp only [if_pos (bot_lt_toEVal z)]

/-- Dual for the minimizing loop with initial `+inf`. -/
theorem abLoopMin_col0_irrel {child : Fin COLS → EVal → EVal → Option EVal}
    (l : List (Fin COLS)) (col0 col0' : Fin COLS) (alpha beta : EVal)
    (hch : ∀ c ∈ l, ∀ a b, ∃ z : Int, child c a b = some (toEVal z))
    (hne : l ≠ []) :
    abLoopMin child l col0 ⊤ alpha beta =
      abLoopMin child l col0' ⊤ alpha beta := by
  cases l with
  | nil => exact absurd rfl hne
  | cons c rest =>
    obtain ⟨z, hz⟩ := hch c (List.mem_cons_self c rest) alpha beta
    simp only [abLoopMin, hz]
    simp only [if_pos (toEVal_lt_top z)]

theorem minimaxBase_finite (piece : Nat) (g : Grid) :
    ∃ z : Int, (minimaxBase piece g).2 = toEVal z := by
  unfold minimaxBase
  split
  · split
    · exact ⟨100000, rfl⟩
    · split
      · exact ⟨-100000, rfl⟩
      · exact ⟨0, rfl⟩
  · exact ⟨scorePosition g piece, rfl⟩

theorem isTerminalNode_false_not_full {piece : Nat} {g : Grid}
    (h : isTerminalNode piece g = false) : isFull g = false := by
  unfold isTerminalNode at h
  exact (Bool.or_eq_false_iff.mp h).2

/-- Every valid column has finite, defined maximizing-child values. -/
theorem maxChild_finite (pick : List (Fin COLS) → Fin COLS) (piece : Nat)
    (d : Nat) (g : Grid) (hst : Stacked g)
    (ihd : ∀ (g' : Grid) (a b : EVal) (m : Bool), Stacked g' →
      ∃ z : Int, (minimax pick piece d g' a b m).2 = toEVal z) :
    ∀ c ∈ getValidLocations g, ∀ a b,
      ∃ z : Int, maxChild pick piece d g c a b = some (toEVal z) := by
  intro c hc a b
  have htop := mem_getValidLocations.mp hc
  obtain ⟨row, hrow⟩ :=
    Option.isSome_iff_exists.mp (getNextOpenRow_isSome_of_top htop)
  unfold maxChild
  rw [hrow]
  dsimp only
  obtain ⟨z, hz⟩ := ihd (setCell g row c piece) a b false
    (stacked_setCell hst hrow piece)
  exact ⟨z, by rw [hz]⟩

/-- Every valid column has finite, defined minimizing-child values. -/
theorem minChild_finite (pick : List (Fin COLS) → Fin COLS) (piece : Nat)
    (d : Nat) (g : Grid) (hst : Stacked g)
    (ihd : ∀ (g' : Grid) (a b : EVal) (m : Bool), Stacked g' →
      ∃ z : Int, (minimax pick piece d g' a b m).2 = toEVal z) :
    ∀ c ∈ getValidLocations g, ∀ a b,
      ∃ z : Int, minChild pick piece d g c a b = some (toEVal z) := by
  intro c hc a b
  have htop := mem_getValidLocations.mp hc
  obtain ⟨row, hrow⟩ :=
    Option.isSome_iff_exists.mp (getNextOpenRow_isSome_of_top htop)
  unfold minChild
  rw [hrow]
  dsimp only
  obtain ⟨z, hz⟩ := ihd (setCell g row c (oppPiece piece)) a b true
    (stacked_setCell hst hrow (oppPiece piece))
  exact ⟨z, by rw [hz]⟩

/-- On gravity-consistent grids the search value is always a finite
integer. -/
theorem minimax_value_finite (pick : List (Fin COLS) → Fin COLS)
    (piece : Nat) :
    ∀ (d : Nat) (g : Grid) (alpha beta : EVal) (m : Bool), Stacked g →
      ∃ z : Int, (minimax pick piece d g alpha beta m).2 = toEVal z := by
  intro d
  induction d with
  | zero =>
    intro g a b m _
    exact minimaxBase_finite piece g
  | succ d ih =>
    intro g a b m hst
    by_cases hterm : isTerminalNode piece g = true
    · rw [minimax_of_terminal hterm]
      exact minimaxBase_finite piece g
    · have hterm' : isTerminalNode piece g = false := by
        cases hb : isTerminalNode piece g
        · rfl
        · exact absurd hb hterm
      have hvalid := stacked_valid_ne_nil hst (isTerminalNode_false_not_full hterm')
      cases m with
      | true =>
        rw [minimax_succ_max pick piece d g a b hterm']
        exact abLoopMax_finite _ _ _ _ _
          (maxChild_finite pick piece d g hst fun g' a' b' m' h' => ih g' a' b' m' h')
          (Or.inr ⟨rfl, hvalid⟩)
      | false =>
        rw [minimax_succ_min pick piece d g a b hterm']
        exact abLoopMin_finite _ _ _ _ _
          (minChild_finite pick piece d g hst fun g' a' b' m' h' => ih g' a' b' m' h')
          (Or.inr ⟨rfl, hvalid⟩)

/-- On gravity-consistent grids the whole `minimax` result — column and
value — is independent of the `random.choice` default: the first explored
child always overwrites it. -/
theorem minimax_pick_indep (pick₁ pick₂ : List (Fin COLS) → Fin COLS)
    (piece : Nat) :
    ∀ (d : Nat) (g : Grid) (alpha beta : EVal) (m : Bool), Stacked g →
      minimax pick₁ piece d g alpha beta m =
        minimax pick₂ piece d g alpha beta m := by
  intro d
  induction d with
  | zero => intro g a b m _; rfl
  | succ d ih =>
    intro g a b m hst
    by_cases hterm : isTerminalNode piece g = true
    · rw [minimax_of_terminal hterm, minimax_of_terminal hterm]
    · have hterm' : isTerminalNode piece g = false := by
        cases hb : isTerminalNode piece g
        · rfl
        · exact absurd hb hterm
      have hvalid := stacked_valid_ne_nil hst (isTerminalNode_false_not_full hterm')
      cases m with
      | true =>
        rw [minimax_succ_max pick₁ piece d g a b hterm',
          minimax_succ_max pick₂ piece d g a b hterm']
        have hcongr : ∀ (c : Fin COLS) (a' b' : EVal),
            maxChild pick₁ piece d g c a' b' = maxChild pick₂ piece d g c a' b' := by
          intro c a' b'
          unfold maxChild
          cases hrow : getNextOpenRow g c with
          | none => rfl
          | some row =>
            dsimp only
            rw [ih (setCell g row c piece) a' b' false
              (stacked_setCell hst hrow piece)]
        have heq : abLoopMax (maxChild pick₁ piece d g) (getValidLocations g)
            (pick₁ (getValidLocations g)) ⊥ a b =
          abLoopMax (maxChild pick₂ piece d g) (getValidLocations g)
            (pick₂ (getValidLocations g)) ⊥ a b := by
          rw [abLoopMax_congr hcongr]
          exact abLoopMax_col0_irrel (getValidLocations g) _ _ a b
            (maxChild_finite pick₂ piece d g hst fun g' a' b' m' h' =>
              minimax_value_finite pick₂ piece d g' a' b' m' h')
            hvalid
        rw [heq]
      | false =>
        rw [minimax_succ_min pick₁ piece d g a b hterm',
          minimax_succ_min pick₂ piece d g a b hterm']
        have hcongr : ∀ (c : Fin COLS) (a' b' : EVal),
            minChild pick₁ piece d g c a' b' = minChild pick₂ piece d g c a' b' := by
          intro c a' b'
          unfold minChild
          cases hrow : getNextOpenRow g c with
          | none => rfl
          | some row =>
            dsimp only
            rw [ih (setCell g row c (oppPiece piece)) a' b' true
              (stacked_setCell hst hrow (oppPiece piece))]
        have heq : abLoopMin (minChild pick₁ piece d g) (getValidLocations g)
            (pick₁ (getValidLocations g)) ⊤ a b =
          abLoopMin (minChild pick₂ piece d g) (getValidLocations g)
            (pick₂ (getValidLocations g)) ⊤ a b := by
          rw [abLoopMin_congr hcongr]
          exact abLoopMin_col0_irrel (getValidLocations g) _ _ a b
            (minChild_finite pick₂ piece d g hst fun g' a' b' m' h' =>
              minimax_value_finite pick₂ piece d g' a' b' m' h')
            hvalid
        rw [heq]

/-!
## Claim C10: determinism of `get_move`
-/

/-- A second stand-in for `random.choice`, used to witness that the choice
function is immaterial. -/
def lastPick : List (Fin COLS) → Fin COLS := fun l => l.getLastD 0

/-- Claim C10: `get_move` is deterministic — on gravity-consistent grids its
result does not depend on the `random.choice` default column inside
`minimax`, because the first explored child always overwrites that default
before it can be returned. -/
theorem c10_get_move_deterministic (pick₁ pick₂ : List (Fin COLS) → Fin COLS)
    (piece : Nat) (g : Grid) (depth : Nat) (hst : Stacked g) :
    getMove pick₁ piece g depth = getMove pick₂ piece g depth := by
  unfold getMove
  rw [minimax_pick_indep pick₁ pick₂ piece depth g ⊥ ⊤ true hst]

/-- Witness for C10 at two concrete choice functions on the empty grid. -/
theorem c10_witness :
    Stacked emptyGrid ∧
      getMove headPick PLAYER2 emptyGrid 2 =
        getMove lastPick PLAYER2 emptyGrid 2 :=
  ⟨by decide,
   c10_get_move_deterministic headPick lastPick PLAYER2 emptyGrid 2 (by decide)⟩

/-!
## Claim C2: the `get_move` contract

At depth 0 with no immediate win/block, `minimax` hits its base case and
returns column `None`, so `get_move` returns "no move" although moves
exist; the claimed equivalence only holds from depth 1 on.
-/

theorem isFull_false_of_empty_cell {g : Grid} {r : Fin ROWS} {c : Fin COLS}
    (h : g r c = EMPTY) : isFull g = false := by
  cases hb : isFull g with
  | false => rfl
  | true =>
    exfalso
    unfold isFull at hb
    rw [List.all_eq_true] at hb
    have := hb r (List.mem_finRange r)
    rw [List.all_eq_true] at this
    have := this c (List.mem_finRange c)
    rw [h] at this
    simp at this

theorem headD_mem {α : Type} {l : List α} (d : α) (h : l ≠ []) :
    l.headD d ∈ l := by
  cases l with
  | nil => exact absurd rfl h
  | cons x xs => exact List.mem_cons_self x xs

/-- If no valid column simulates to an immediate win for `piece`, then
`piece` has no win line on the grid already. -/
theorem no_sim_win_no_win {g : Grid} {piece : Nat} (hpne : piece ≠ EMPTY)
    (hvalidne : getValidLocations g ≠ [])
    (hall : ∀ c ∈ getValidLocations g, simulatedWin g piece c = false) :
    checkWin g piece = false := by
  cases hb : checkWin g piece with
  | false => rfl
  | true =>
    exfalso
    obtain ⟨c, hc⟩ : ∃ c, c ∈ getValidLocations g := by
      cases hl : getValidLocations g with
      | nil => exact absurd hl hvalidne
      | cons x xs => exact ⟨x, hl ▸ List.mem_cons_self x xs⟩
    have htop := mem_getValidLocations.mp hc
    obtain ⟨row, hrow⟩ :=
      Option.isSome_iff_exists.mp (getNextOpenRow_isSome_of_top htop)
    have hempty := (getNextOpenRow_eq_some_iff.mp hrow).1
    have hpres : checkWin (setCell g row c piece) piece = true :=
      checkWin_set_preserve (by rw [hempty]; exact fun hh => hpne hh.symm) hb
    have hthis := hall c hc
    unfold simulatedWin at hthis
    rw [hrow] at hthis
    dsimp only at hthis
    rw [hpres] at hthis
    exact Bool.noConfusion hthis

theorem oppPiece_ne_empty (piece : Nat) : oppPiece piece ≠ EMPTY := by
  unfold oppPiece
  split <;> decide

/-- Claim C2 is false as stated: at depth 0 on the empty grid, no shortcut
fires and `minimax` hits its base case with column `None`, so `get_move`
returns "no move" although all nine columns are valid. -/
theorem c2_counterexample :
    getMove headPick PLAYER2 emptyGrid 0 = none ∧
      getValidLocations emptyGrid ≠ [] := by
  refine ⟨by decide, by decide⟩

/-- Claim C2 (corrected): for every gravity-consistent grid and every depth
`≥ 1`, `get_move` returns "no move" exactly when there is no valid column,
and otherwise returns a member of the current valid-columns list.  (At
depth 0 the contract fails: `minimax(…, 0, …)` returns column `None`.) -/
theorem c2_get_move_contract (pick : List (Fin COLS) → Fin COLS)
    (piece : Nat) (g : Grid) (depth : Nat)
    (hp : piece = PLAYER1 ∨ piece = PLAYER2) (hst : Stacked g)
    (hd : 1 ≤ depth) :
    (getValidLocations g = [] → getMove pick piece g depth = none) ∧
    (getValidLocations g ≠ [] →
      ∃ c, getMove pick piece g depth = some c ∧ c ∈ getValidLocations g) := by
  constructor
  · intro hnil
    unfold getMove
    rw [if_pos (by rw [hnil]; rfl)]
  · intro hne
    unfold getMove
    rw [if_neg (by rw [List.isEmpty_iff]; exact hne)]
    cases hfw : (getValidLocations g).find? fun col => simulatedWin g piece col with
    | some c =>
      exact ⟨c, rfl, List.mem_of_find?_eq_some hfw⟩
    | none =>
      cases hfb : (getValidLocations g).find?
          fun col => simulatedWin g (oppPiece piece) col with
      | some c =>
        exact ⟨c, rfl, List.mem_of_find?_eq_some hfb⟩
      | none =>
        have hnw1 : checkWin g piece = false :=
          no_sim_win_no_win
            (by rcases hp with rfl | rfl <;> decide) hne
            (fun c hc => by
              have := List.find?_eq_none.mp hfw c hc
              cases hb : simulatedWin g piece c with
              | false => rfl
              | true => exact absurd hb this)
        have hnw2 : checkWin g (oppPiece piece) = false :=
          no_sim_win_no_win (oppPiece_ne_empty piece) hne
            (fun c hc => by
              have := List.find?_eq_none.mp hfb c hc
              cases hb : simulatedWin g (oppPiece piece) c with
              | false => rfl
              | true => exact absurd hb this)
        have hnf : isFull g = false := by
          obtain ⟨c, hc⟩ : ∃ c, c ∈ getValidLocations g := by
            cases hl : getValidLocations g with
            | nil => exact absurd hl hne
            | cons x xs => exact ⟨x, hl ▸ List.mem_cons_self x xs⟩
          exact isFull_false_of_empty_cell (mem_getValidLocations.mp hc)
        have hterm' : isTerminalNode piece g = false := by
          unfold isTerminalNode
          rw [hnw1, hnw2, hnf]
          rfl
        obtain ⟨d, rfl⟩ : ∃ d, depth = d + 1 := by
          cases depth with
          | zero => exact absurd hd (by omega)
          | succ d => exact ⟨d, rfl⟩
        rw [minimax_pick_indep pick headPick piece (d + 1) g ⊥ ⊤ true hst]
        rw [minimax_succ_max headPick piece d g ⊥ ⊤ hterm']
        refine ⟨_, rfl, ?_⟩
        have hmem := abLoopMax_col_mem (maxChild headPick piece d g)
          (getValidLocations g) (headPick (getValidLocations g)) ⊥ ⊥ ⊤
        rcases List.mem_cons.mp hmem with h | h
        · rw [h]
          exact headD_mem 0 hne
        · exact h

/-- Witness for C2 (corrected): on the empty grid at depth 1, `get_move`
returns a valid column. -/
theorem c2_witness :
    (PLAYER2 = PLAYER1 ∨ PLAYER2 = PLAYER2) ∧ Stacked emptyGrid ∧
      (getValidLocations emptyGrid ≠ [] →
        ∃ c, getMove headPick PLAYER2 emptyGrid 1 = some c ∧
          c ∈ getValidLocations emptyGrid) :=
  ⟨Or.inr rfl, by decide,
   (c2_get_move_contract headPick PLAYER2 emptyGrid 1 (Or.inr rfl) (by decide)
      (by omega)).2⟩

/-!
## Claim C4: the immediate-block shortcut
-/

/-- `find?` on a strictly sorted list returns the least element satisfying
the predicate. -/
theorem find?_pairwise_least {l : List (Fin COLS)}
    (hsort : l.Pairwise (· < ·)) {p : Fin COLS → Bool} {c₀ : Fin COLS}
    (h : l.find? p = some c₀) :
    ∀ c' ∈ l, p c' = true → c₀ ≤ c' := by
  intro c' hmem hp'
  obtain ⟨-, as, bs, hsplit, hprev⟩ := List.find?_eq_some.mp h
  rw [hsplit] at hmem hsort
  rcases List.mem_append.mp hmem with hin | hin
  · have := hprev c' hin
    rw [hp'] at this
    exact absurd this (by decide)
  · rcases List.mem_cons.mp hin with rfl | hin
    · exact le_refl _
    · have hpair := (List.pairwise_append.mp hsort).2.1
      exact le_of_lt ((List.pairwise_cons.mp hpair).1 c' hin)

/-- The valid-columns list is strictly ascending. -/
theorem getValidLocations_sorted (g : Grid) :
    (getValidLocations g).Pairwise (· < ·) :=
  List.Pairwise.sublist (List.filter_sublist _) (List.pairwise_lt_finRange COLS)

/-- Claim C4: whenever no single drop of the engine's own piece wins
immediately but some valid column lets the opponent win after dropping the
opponent's piece there, `get_move` returns the least such column — the
first qualifying column in ascending order — at EVERY configured depth, so
the minimax search is never consulted. -/
theorem c4_immediate_block (pick : List (Fin COLS) → Fin COLS)
    (piece : Nat) (g : Grid) (depth : Nat)
    (hnowin : ∀ c ∈ getValidLocations g, simulatedWin g piece c = false)
    (hblock : ∃ c ∈ getValidLocations g,
      simulatedWin g (oppPiece piece) c = true) :
    ∃ c₀, getMove pick piece g depth = some c₀ ∧
      c₀ ∈ getValidLocations g ∧
      simulatedWin g (oppPiece piece) c₀ = true ∧
      ∀ c' ∈ getValidLocations g,
        simulatedWin g (oppPiece piece) c' = true → c₀ ≤ c' := by
  obtain ⟨cb, hcb, hcbwin⟩ := hblock
  have hne : getValidLocations g ≠ [] := by
    intro hnil
    rw [hnil] at hcb
    exact List.not_mem_nil cb hcb
  have hfw : (getValidLocations g).find? (fun col => simulatedWin g piece col)
      = none :=
    List.find?_eq_none.mpr fun c hc => by rw [hnowin c hc]; exact Bool.noConfusion
  have hsome : ((getValidLocations g).find?
      fun col => simulatedWin g (oppPiece piece) col).isSome :=
    List.find?_isSome.mpr ⟨cb, hcb, hcbwin⟩
  obtain ⟨c₀, hc₀⟩ := Option.isSome_iff_exists.mp hsome
  refine ⟨c₀, ?_, List.mem_of_find?_eq_some hc₀, List.find?_some hc₀,
    find?_pairwise_least (getValidLocations_sorted g) hc₀⟩
  unfold getMove
  rw [if_neg (by rw [List.isEmpty_iff]; exact hne), hfw, hc₀]

/-- The position used to witness C4: PLAYER1 threatens a horizontal
four-in-a-row completed at column 3; the engine (PLAYER2) has no immediate
win. -/
def c4Grid : Grid := fun r c =>
  if (r : Nat) = 0 ∧ (c : Nat) < 3 then PLAYER1
  else if (r : Nat) = 1 ∧ (c : Nat) < 2 then PLAYER2
  else EMPTY

/-- Witness for C4: on `c4Grid` (engine PLAYER2, depth 4), the hypotheses
hold and `get_move` blocks at the unique qualifying column. -/
theorem c4_witness :
    (∀ c ∈ getValidLocations c4Grid, simulatedWin c4Grid PLAYER2 c = false) ∧
    (∃ c ∈ getValidLocations c4Grid,
      simulatedWin c4Grid (oppPiece PLAYER2) c = true) ∧
    ∃ c₀, getMove headPick PLAYER2 c4Grid 4 = some c₀ ∧
      c₀ ∈ getValidLocations c4Grid ∧
      simulatedWin c4Grid (oppPiece PLAYER2) c₀ = true ∧
      ∀ c' ∈ getValidLocations c4Grid,
        simulatedWin c4Grid (oppPiece PLAYER2) c' = true → c₀ ≤ c' :=
  ⟨by decide, by decide,
   c4_immediate_block headPick PLAYER2 c4Grid 4 (by decide) (by decide)⟩

/-!
## Claim C7: alpha-beta pruning does not change the decision

The comparison point is `pureMinimax` (the same algorithm with the
`alpha >= beta` break removed).  The proof is the fail-soft alpha-beta
correctness argument: by induction on depth, the pruned value `v'` of a node
relates to its pruning-free value `v` by
`v ≤ α → v ≤ v' ≤ α`, `α < v < β → v' = v` (together with the chosen
column), and `β ≤ v → β ≤ v' ≤ v`; at the root the window is `(-inf, +inf)`
and values are finite, so the middle case applies and the chosen column
agrees.
-/

/-- The per-column child of the maximizing branch of `pureMinimax`. -/
def pureMaxChild (pick : List (Fin COLS) → Fin COLS) (piece : Nat) (d : Nat)
    (g : Grid) : Fin COLS → EVal → EVal → Option EVal :=
  fun c a b =>
    match getNextOpenRow g c with
    | none => none
    | some row =>
        some (pureMinimax pick piece d (setCell g row c piece) a b false).2

/-- The per-column child of the minimizing branch of `pureMinimax`. -/
def pureMinChild (pick : List (Fin COLS) → Fin COLS) (piece : Nat) (d : Nat)
    (g : Grid) : Fin COLS → EVal → EVal → Option EVal :=
  fun c a b =>
    match getNextOpenRow g c with
    | none => none
    | some row =>
        some (pureMinimax pick piece d (setCell g row c (oppPiece piece)) a b
          true).2

theorem pureMinimax_succ_max (pick : List (Fin COLS) → Fin COLS)
    (piece : Nat) (d : Nat) (g : Grid) (alpha beta : EVal)
    (hterm : isTerminalNode piece g = false) :
    pureMinimax pick piece (d + 1) g alpha beta true =
      (some (pureLoopMax (pureMaxChild pick piece d g) (getValidLocations g)
          (pick (getValidLocations g)) ⊥ alpha beta).1,
       (pureLoopMax (pureMaxChild pick piece d g) (getValidLocations g)
          (pick (getValidLocations g)) ⊥ alpha beta).2) := by
  show (if isTerminalNode piece g then minimaxBase piece g else _) = _
  rw [if_neg (by rw [hterm]; exact Bool.noConfusion)]
  rfl

theorem pureMinimax_succ_min (pick : List (Fin COLS) → Fin COLS)
    (piece : Nat) (d : Nat) (g : Grid) (alpha beta : EVal)
    (hterm : isTerminalNode piece g = false) :
    pureMinimax pick piece (d + 1) g alpha beta false =
      (some (pureLoopMin (pureMinChild pick piece d g) (getValidLocations g)
          (pick (getValidLocations g)) ⊤ alpha beta).1,
       (pureLoopMin (pureMinChild pick piece d g) (getValidLocations g)
          (pick (getValidLocations g)) ⊤ alpha beta).2) := by
  show (if isTerminalNode piece g then minimaxBase piece g else _) = _
  rw [if_neg (by rw [hterm]; exact Bool.noConfusion)]
  rfl

/-- Without the break, the loop result ignores the threaded `alpha`/`beta`
whenever the child evaluations do. -/
theorem pureLoopMax_ab_irrel {child : Fin COLS → EVal → EVal → Option EVal}
    (hch : ∀ c a b a' b', child c a b = child c a' b') :
    ∀ (l : List (Fin COLS)) (col0 : Fin COLS) (v0 a b a' b' : EVal),
      pureLoopMax child l col0 v0 a b = pureLoopMax child l col0 v0 a' b' := by
  intro l
  induction l with
  | nil => intro col0 v0 a b a' b'; rfl
  | cons c rest ih =>
    intro col0 v0 a b a' b'
    simp only [pureLoopMax]
    rw [hch c a b a' b']
    cases h2 : child c a' b' with
    | none => exact ih col0 v0 a b a' b'
    | some ns =>
      dsimp only
      split
      · exact ih _ _ _ _ _ _
      · exact ih _ _ _ _ _ _

/-- Dual for the minimizing loop. -/
theorem pureLoopMin_ab_irrel {child : Fin COLS → EVal → EVal → Option EVal}
    (hch : ∀ c a b a' b', child c a b = child c a' b') :
    ∀ (l : List (Fin COLS)) (col0 : Fin COLS) (v0 a b a' b' : EVal),
      pureLoopMin child l col0 v0 a b = pureLoopMin child l col0 v0 a' b' := by
  intro l
  induction l with
  | nil => intro col0 v0 a b a' b'; rfl
  | cons c rest ih =>
    intro col0 v0 a b a' b'
    simp only [pureLoopMin]
    rw [hch c a b a' b']
    cases h2 : child c a' b' with
    | none => exact ih col0 v0 a b a' b'
    | some ns =>
      dsimp only
      split
      · exact ih _ _ _ _ _ _
      · exact ih _ _ _ _ _ _

/-- The value of `pureMinimax` does not depend on the window passed in. -/
theorem pureMinimax_ab_irrel (pick : List (Fin COLS) → Fin COLS)
    (piece : Nat) :
    ∀ (d : Nat) (g : Grid) (a b a' b' : EVal) (m : Bool),
      pureMinimax pick piece d g a b m = pureMinimax pick piece d g a' b' m := by
  intro d
  induction d with
  | zero => intro g a b a' b' m; rfl
  | succ d ih =>
    intro g a b a' b' m
    by_cases hterm : isTerminalNode piece g = true
    · cases m <;>
        show (if isTerminalNode piece g then minimaxBase piece g else _) =
          (if isTerminalNode piece g then minimaxBase piece g else _) <;>
        rw [if_pos hterm, if_pos hterm]
    · have hterm' : isTerminalNode piece g = false := by
        cases hb : isTerminalNode piece g
        · rfl
        · exact absurd hb hterm
      cases m with
      | true =>
        rw [pureMinimax_succ_max pick piece d g a b hterm',
          pureMinimax_succ_max pick piece d g a' b' hterm']
        have hch : ∀ c a1 b1 a2 b2,
            pureMaxChild pick piece d g c a1 b1 =
              pureMaxChild pick piece d g c a2 b2 := by
          intro c a1 b1 a2 b2
          unfold pureMaxChild
          cases hrow : getNextOpenRow g c with
          | none => rfl
          | some row =>
            dsimp only
            rw [ih (setCell g row c piece) a1 b1 a2 b2 false]
        rw [pureLoopMax_ab_irrel hch (getValidLocations g) _ ⊥ a b a' b']
      | false =>
        rw [pureMinimax_succ_min pick piece d g a b hterm',
          pureMinimax_succ_min pick piece d g a' b' hterm']
        have hch : ∀ c a1 b1 a2 b2,
            pureMinChild pick piece d g c a1 b1 =
              pureMinChild pick piece d g c a2 b2 := by
          intro c a1 b1 a2 b2
          unfold pureMinChild
          cases hrow : getNextOpenRow g c with
          | none => rfl
          | some row =>
            dsimp only
            rw [ih (setCell g row c (oppPiece piece)) a1 b1 a2 b2 true]
        rw [pureLoopMin_ab_irrel hch (getValidLocations g) _ ⊤ a b a' b']

/-- The maximizing loop's value never decreases below its running value. -/
theorem pureLoopMax_value_le {child : Fin COLS → EVal → EVal → Option EVal} :
    ∀ (l : List (Fin COLS)) (col0 : Fin COLS) (v0 a b : EVal),
      v0 ≤ (pureLoopMax child l col0 v0 a b).2 := by
  intro l
  induction l with
  | nil => intro col0 v0 a b; exact le_refl v0
  | cons c rest ih =>
    intro col0 v0 a b
    simp only [pureLoopMax]
    cases h2 : child c a b with
    | none => exact ih col0 v0 a b
    | some ns =>
      dsimp only
      split
      · next h => exact le_trans (le_of_lt h) (ih _ _ _ _)
      · exact ih _ _ _ _

/-- The minimizing loop's value never increases above its running value. -/
theorem pureLoopMin_value_ge {child : Fin COLS → EVal → EVal → Option EVal} :
    ∀ (l : List (Fin COLS)) (col0 : Fin COLS) (v0 a b : EVal),
      (pureLoopMin child l col0 v0 a b).2 ≤ v0 := by
  intro l
  induction l with
  | nil => intro col0 v0 a b; exact le_refl v0
  | cons c rest ih =>
    intro col0 v0 a b
    simp only [pureLoopMin]
    cases h2 : child c a b with
    | none => exact ih col0 v0 a b
    | some ns =>
      dsimp only
      split
      · next h => exact le_trans (ih _ _ _ _) (le_of_lt h)
      · exact ih _ _ _ _

/-- Fail-soft relation between the pruned and the pruning-free maximizing
loops.  `childA` is evaluated with the running alpha (invariantly
`max a0 vA`) and the fixed `b`; `childP` ignores its window.  The running
states are either both at most `a0` (with the pure value below the pruned
one), or strictly inside the window and identical. -/
theorem abLoopMax_km {childA childP : Fin COLS → EVal → EVal → Option EVal}
    {a0 b : EVal} (hab : a0 < b)
    (hchP : ∀ c a1 b1 a2 b2, childP c a1 b1 = childP c a2 b2) :
    ∀ (l : List (Fin COLS)) (colA colP : Fin COLS) (vA vP pa pb : EVal),
      (∀ c ∈ l, ∃ vc, childP c ⊥ ⊤ = some vc ∧
        ∀ alpha, a0 ≤ alpha → alpha < b →
          ∃ vc', childA c alpha b = some vc' ∧
            (vc ≤ alpha → vc ≤ vc' ∧ vc' ≤ alpha) ∧
            (alpha < vc → vc < b → vc' = vc) ∧
            (b ≤ vc → b ≤ vc' ∧ vc' ≤ vc)) →
      ((vP ≤ a0 ∧ vA ≤ a0 ∧ vP ≤ vA) ∨
        (a0 < vP ∧ vP < b ∧ vA = vP ∧ colA = colP)) →
      ((pureLoopMax childP l colP vP pa pb).2 ≤ a0 →
        (abLoopMax childA l colA vA (max a0 vA) b).2 ≤ a0 ∧
        (pureLoopMax childP l colP vP pa pb).2 ≤
          (abLoopMax childA l colA vA (max a0 vA) b).2) ∧
      (a0 < (pureLoopMax childP l colP vP pa pb).2 →
        (pureLoopMax childP l colP vP pa pb).2 < b →
        abLoopMax childA l colA vA (max a0 vA) b =
          pureLoopMax childP l colP vP pa pb) ∧
      (b ≤ (pureLoopMax childP l colP vP pa pb).2 →
        b ≤ (abLoopMax childA l colA vA (max a0 vA) b).2 ∧
        (abLoopMax childA l colA vA (max a0 vA) b).2 ≤
          (pureLoopMax childP l colP vP pa pb).2) := by
  intro l
  induction l with
  | nil =>
    intro colA colP vA vP pa pb _ hR
    refine ⟨?_, ?_, ?_⟩
    · intro hP
      rcases hR with ⟨h1, h2, h3⟩ | ⟨h1, h2, h3, h4⟩
      · exact ⟨h2, h3⟩
      · exact absurd (lt_of_lt_of_le h1 hP) (lt_irrefl a0)
    · intro hPlo hPhi
      rcases hR with ⟨h1, h2, h3⟩ | ⟨h1, h2, h3, h4⟩
      · exact absurd (lt_of_lt_of_le hPlo h1) (lt_irrefl a0)
      · show (colA, vA) = (colP, vP)
        rw [h3, h4]
    · intro hP
      rcases hR with ⟨h1, h2, h3⟩ | ⟨h1, h2, h3, h4⟩
      · exact absurd (le_trans hP h1) (not_le.mpr hab)
      · exact absurd (lt_of_lt_of_le h2 hP) (lt_irrefl vP)
  | cons c rest ih =>
    intro colA colP vA vP pa pb hrel hR
    obtain ⟨vc, hvc, hrelc⟩ := hrel c (List.mem_cons_self c rest)
    have hrel' : ∀ c' ∈ rest, ∃ vc0, childP c' ⊥ ⊤ = some vc0 ∧
        ∀ alpha, a0 ≤ alpha → alpha < b →
          ∃ vc0', childA c' alpha b = some vc0' ∧
            (vc0 ≤ alpha → vc0 ≤ vc0' ∧ vc0' ≤ alpha) ∧
            (alpha < vc0 → vc0 < b → vc0' = vc0) ∧
            (b ≤ vc0 → b ≤ vc0' ∧ vc0' ≤ vc0) :=
      fun c' hc' => hrel c' (List.mem_cons.mpr (Or.inr hc'))
    have hvcp : childP c pa pb = some vc := (hchP c pa pb ⊥ ⊤).trans hvc
    have hαb : max a0 vA < b := by
      rcases hR with ⟨-, h2, -⟩ | ⟨h1, h2, h3, -⟩
      · rw [max_eq_left h2]; exact hab
      · rw [h3, max_eq_right (le_of_lt h1)]; exact h2
    obtain ⟨vc', hvc', hcase1, hcase2, hcase3⟩ :=
      hrelc (max a0 vA) (le_max_left _ _) hαb
    simp only [abLoopMax, pureLoopMax, hvc', hvcp]
    rcases hR with ⟨h1, h2, h3⟩ | ⟨h1, h2, h3, h4⟩
    · -- both running values at most a0
      simp only [max_eq_left h2] at hcase1 hcase2 hcase3 ⊢
      rcases le_or_lt vc a0 with hvca | hvca
      · -- the child stays below the window: still fail-low
        obtain ⟨hlo, hhi⟩ := hcase1 hvca
        have hA' : (if vA < vc' then vc' else vA) ≤ a0 := by
          split
          · exact hhi
          · exact h2
        have hP' : (if vP < vc then vc else vP) ≤ a0 := by
          split
          · exact hvca
          · exact h1
        have hPA' : (if vP < vc then vc else vP) ≤
            (if vA < vc' then vc' else vA) := by
          split <;> split
          · exact hlo
          · next hup hnup => exact le_trans hlo (le_of_not_lt hnup)
          · next hnup hup => exact le_trans h3 (le_of_lt hup)
          · exact h3
        have hbr : ¬ b ≤ max a0 (if vA < vc' then vc' else vA) := by
          rw [max_eq_left hA']
          exact not_le.mpr hab
        simp only [if_neg hbr]
        exact ih _ _ _ _ _ _ hrel' (Or.inl ⟨hP', hA', hPA'⟩)
      · rcases lt_or_le vc b with hvcb | hvcb
        · -- the child lands inside the window: states synchronise
          have hx : vc = vc' := (hcase2 hvca hvcb).symm
          subst hx
          have hupA : vA < vc := lt_of_le_of_lt h2 hvca
          have hupP : vP < vc := lt_of_le_of_lt h1 hvca
          simp only [if_pos hupA, if_pos hupP]
          have hbr : ¬ b ≤ max a0 vc := by
            rw [max_eq_right (le_of_lt hvca)]
            exact not_le.mpr hvcb
          simp only [if_neg hbr]
          exact ih _ _ _ _ _ _ hrel'
            (Or.inr ⟨hvca, hvcb, rfl, rfl⟩)
        · -- the child fails high: the pruned loop breaks here
          obtain ⟨hge, hle⟩ := hcase3 hvcb
          have hupA : vA < vc' :=
            lt_of_le_of_lt h2 (lt_of_lt_of_le hab hge)
          have hupP : vP < vc :=
            lt_of_le_of_lt h1 (lt_of_lt_of_le hab hvcb)
          simp only [if_pos hupA, if_pos hupP]
          have hbr : b ≤ max a0 vc' :=
            le_trans hge (le_max_right a0 vc')
          simp only [if_pos hbr]
          have hPge : vc ≤ (pureLoopMax childP rest c vc
              (max pa vc) pb).2 := pureLoopMax_value_le _ _ _ _ _
          refine ⟨?_, ?_, ?_⟩
          · intro hP
            exact absurd (le_trans hvcb (le_trans hPge hP))
              (not_le.mpr hab)
          · intro hPlo hPhi
            exact absurd (lt_of_le_of_lt (le_trans hvcb hPge) hPhi)
              (lt_irrefl b)
          · intro hP
            exact ⟨hge, le_trans hle hPge⟩
    · -- states synchronised inside the window
      simp only [h3, h4] at hcase1 hcase2 hcase3 ⊢
      simp only [max_eq_right (le_of_lt h1)] at hcase1 hcase2 hcase3 ⊢
      rcases le_or_lt vc vP with hvca | hvca
      · -- the child does not improve: neither loop updates
        obtain ⟨hlo, hhi⟩ := hcase1 hvca
        simp only [if_neg (not_lt.mpr hhi), if_neg (not_lt.mpr hvca)]
        have hbr : ¬ b ≤ max vP vP := by
          rw [max_self]
          exact not_le.mpr h2
        simp only [if_neg hbr]
        have hms : (max vP vP : EVal) = max a0 vP := by
          rw [max_self, max_eq_right (le_of_lt h1)]
        simp only [hms]
        exact ih _ _ _ _ _ _ hrel' (Or.inr ⟨h1, h2, rfl, rfl⟩)
      · rcases lt_or_le vc b with hvcb | hvcb
        · -- strict improvement inside the window: both update alike
          have hx : vc = vc' := (hcase2 hvca hvcb).symm
          subst hx
          simp only [if_pos hvca]
          have hbr : ¬ b ≤ max vP vc := by
            rw [max_eq_right (le_of_lt hvca)]
            exact not_le.mpr hvcb
          simp only [if_neg hbr]
          have hms : (max vP vc : EVal) = max a0 vc := by
            rw [max_eq_right (le_of_lt hvca),
              max_eq_right (le_of_lt (lt_trans h1 hvca))]
          simp only [hms]
          exact ih _ _ _ _ _ _ hrel'
            (Or.inr ⟨lt_trans h1 hvca, hvcb, rfl, rfl⟩)
        · -- the child fails high: the pruned loop breaks here
          obtain ⟨hge, hle⟩ := hcase3 hvcb
          have hupA : vP < vc' := lt_of_lt_of_le h2 hge
          have hupP : vP < vc := lt_of_lt_of_le h2 hvcb
          simp only [if_pos hupA, if_pos hupP]
          have hbr : b ≤ max vP vc' :=
            le_trans hge (le_max_right vP vc')
          simp only [if_pos hbr]
          have hPge : vc ≤ (pureLoopMax childP rest c vc
              (max pa vc) pb).2 := pureLoopMax_value_le _ _ _ _ _
          refine ⟨?_, ?_, ?_⟩
          · intro hP
            exact absurd (le_trans hvcb (le_trans hPge hP))
              (not_le.mpr hab)
          · intro hPlo hPhi
            exact absurd (lt_of_le_of_lt (le_trans hvcb hPge) hPhi)
              (lt_irrefl b)
          · intro hP
            exact ⟨hge, le_trans hle hPge⟩

/-- Fail-soft relation between the pruned and the pruning-free minimizing
loops, dual to `abLoopMax_km`: `childA` is evaluated with the fixed `a` and
the running beta (invariantly `min b0 vA`); the running states are either
both at least `b0` (with the pruned value below the pure one), or strictly
inside the window and identical. -/
theorem abLoopMin_km {childA childP : Fin COLS → EVal → EVal → Option EVal}
    {a b0 : EVal} (hab : a < b0)
    (hchP : ∀ c a1 b1 a2 b2, childP c a1 b1 = childP c a2 b2) :
    ∀ (l : List (Fin COLS)) (colA colP : Fin COLS) (vA vP pa pb : EVal),
      (∀ c ∈ l, ∃ vc, childP c ⊥ ⊤ = some vc ∧
        ∀ beta, beta ≤ b0 → a < beta →
          ∃ vc', childA c a beta = some vc' ∧
            (vc ≤ a → vc ≤ vc' ∧ vc' ≤ a) ∧
            (a < vc → vc < beta → vc' = vc) ∧
            (beta ≤ vc → beta ≤ vc' ∧ vc' ≤ vc)) →
      ((b0 ≤ vP ∧ b0 ≤ vA ∧ vA ≤ vP) ∨
        (a < vP ∧ vP < b0 ∧ vA = vP ∧ colA = colP)) →
      (b0 ≤ (pureLoopMin childP l colP vP pa pb).2 →
        b0 ≤ (abLoopMin childA l colA vA a (min b0 vA)).2 ∧
        (abLoopMin childA l colA vA a (min b0 vA)).2 ≤
          (pureLoopMin childP l colP vP pa pb).2) ∧
      (a < (pureLoopMin childP l colP vP pa pb).2 →
        (pureLoopMin childP l colP vP pa pb).2 < b0 →
        abLoopMin childA l colA vA a (min b0 vA) =
          pureLoopMin childP l colP vP pa pb) ∧
      ((pureLoopMin childP l colP vP pa pb).2 ≤ a →
        (abLoopMin childA l colA vA a (min b0 vA)).2 ≤ a ∧
        (pureLoopMin childP l colP vP pa pb).2 ≤
          (abLoopMin childA l colA vA a (min b0 vA)).2) := by
  intro l
  induction l with
  | nil =>
    intro colA colP vA vP pa pb _ hR
    refine ⟨?_, ?_, ?_⟩
    · intro hP
      rcases hR with ⟨h1, h2, h3⟩ | ⟨h1, h2, h3, h4⟩
      · exact ⟨h2, h3⟩
      · exact absurd (lt_of_lt_of_le h2 hP) (lt_irrefl vP)
    · intro hPlo hPhi
      rcases hR with ⟨h1, h2, h3⟩ | ⟨h1, h2, h3, h4⟩
      · exact absurd (lt_of_le_of_lt h1 hPhi) (lt_irrefl b0)
      · show (colA, vA) = (colP, vP)
        rw [h3, h4]
    · intro hP
      rcases hR with ⟨h1, h2, h3⟩ | ⟨h1, h2, h3, h4⟩
      · exact absurd (le_trans h1 hP) (not_le.mpr hab)
      · exact absurd (lt_of_lt_of_le h1 hP) (lt_irrefl a)
  | cons c rest ih =>
    intro colA colP vA vP pa pb hrel hR
    obtain ⟨vc, hvc, hrelc⟩ := hrel c (List.mem_cons_self c rest)
    have hrel' : ∀ c' ∈ rest, ∃ vc0, childP c' ⊥ ⊤ = some vc0 ∧
        ∀ beta, beta ≤ b0 → a < beta →
          ∃ vc0', childA c' a beta = some vc0' ∧
            (vc0 ≤ a → vc0 ≤ vc0' ∧ vc0' ≤ a) ∧
            (a < vc0 → vc0 < beta → vc0' = vc0) ∧
            (beta ≤ vc0 → beta ≤ vc0' ∧ vc0' ≤ vc0) :=
      fun c' hc' => hrel c' (List.mem_cons.mpr (Or.inr hc'))
    have hvcp : childP c pa pb = some vc := (hchP c pa pb ⊥ ⊤).trans hvc
    have hβa : a < min b0 vA := by
      rcases hR with ⟨-, h2, -⟩ | ⟨h1, h2, h3, -⟩
      · rw [min_eq_left h2]; exact hab
      · rw [h3, min_eq_right (le_of_lt h2)]; exact h1
    obtain ⟨vc', hvc', hcase1, hcase2, hcase3⟩ :=
      hrelc (min b0 vA) (min_le_left _ _) hβa
    simp only [abLoopMin, pureLoopMin, hvc', hvcp]
    rcases hR with ⟨h1, h2, h3⟩ | ⟨h1, h2, h3, h4⟩
    · -- both running values at least b0
      simp only [min_eq_left h2] at hcase1 hcase2 hcase3 ⊢
      rcases le_or_lt b0 vc with hvca | hvca
      · -- the child stays above the window: still fail-high
        obtain ⟨hlo, hhi⟩ := hcase3 hvca
        have hA' : b0 ≤ (if vc' < vA then vc' else vA) := by
          split
          · exact hlo
          · exact h2
        have hP' : b0 ≤ (if vc < vP then vc else vP) := by
          split
          · exact hvca
          · exact h1
        have hAP' : (if vc' < vA then vc' else vA) ≤
            (if vc < vP then vc else vP) := by
          split <;> split
          · exact hhi
          · next hup hnup => exact le_trans (le_of_lt hup) h3
          · next hnup hup => exact le_trans (le_of_not_lt hnup) hhi
          · exact h3
        have hbr : ¬ min b0 (if vc' < vA then vc' else vA) ≤ a := by
          rw [min_eq_left hA']
          exact not_le.mpr hab
        simp only [if_neg hbr]
        exact ih _ _ _ _ _ _ hrel' (Or.inl ⟨hP', hA', hAP'⟩)
      · rcases lt_or_le a vc with hvcb | hvcb
        · -- the child lands inside the window: states synchronise
          have hx : vc = vc' := (hcase2 hvcb hvca).symm
          subst hx
          have hupA : vc < vA := lt_of_lt_of_le hvca h2
          have hupP : vc < vP := lt_of_lt_of_le hvca h1
          simp only [if_pos hupA, if_pos hupP]
          have hbr : ¬ min b0 vc ≤ a := by
            rw [min_eq_right (le_of_lt hvca)]
            exact not_le.mpr hvcb
          simp only [if_neg hbr]
          exact ih _ _ _ _ _ _ hrel'
            (Or.inr ⟨hvcb, hvca, rfl, rfl⟩)
        · -- the child fails low: the pruned loop breaks here
          obtain ⟨hge, hle⟩ := hcase1 hvcb
          have hupA : vc' < vA :=
            lt_of_le_of_lt hle (lt_of_lt_of_le hab h2)
          have hupP : vc < vP :=
            lt_of_le_of_lt hvcb (lt_of_lt_of_le hab h1)
          simp only [if_pos hupA, if_pos hupP]
          have hbr : min b0 vc' ≤ a :=
            le_trans (min_le_right b0 vc') hle
          simp only [if_pos hbr]
          have hPge : (pureLoopMin childP rest c vc
              pa (min pb vc)).2 ≤ vc := pureLoopMin_value_ge _ _ _ _ _
          refine ⟨?_, ?_, ?_⟩
          · intro hP
            exact absurd (le_trans hP (le_trans hPge hvcb))
              (not_le.mpr hab)
          · intro hPlo hPhi
            exact absurd (lt_of_lt_of_le hPlo (le_trans hPge hvcb))
              (lt_irrefl a)
          · intro hP
            exact ⟨hle, le_trans hPge hge⟩
    · -- states synchronised inside the window
      simp only [h3, h4] at hcase1 hcase2 hcase3 ⊢
      simp only [min_eq_right (le_of_lt h2)] at hcase1 hcase2 hcase3 ⊢
      rcases le_or_lt vP vc with hvca | hvca
      · -- the child does not improve: neither loop updates
        obtain ⟨hlo, hhi⟩ := hcase3 hvca
        simp only [if_neg (not_lt.mpr hlo), if_neg (not_lt.mpr hvca)]
        have hbr : ¬ min vP vP ≤ a := by
          rw [min_self]
          exact not_le.mpr h1
        simp only [if_neg hbr]
        have hms : (min vP vP : EVal) = min b0 vP := by
          rw [min_self, min_eq_right (le_of_lt h2)]
        simp only [hms]
        exact ih _ _ _ _ _ _ hrel' (Or.inr ⟨h1, h2, rfl, rfl⟩)
      · rcases lt_or_le a vc with hvcb | hvcb
        · -- strict improvement inside the window: both update alike
          have hx : vc = vc' := (hcase2 hvcb hvca).symm
          subst hx
          simp only [if_pos hvca]
          have hbr : ¬ min vP vc ≤ a := by
            rw [min_eq_right (le_of_lt hvca)]
            exact not_le.mpr hvcb
          simp only [if_neg hbr]
          have hms : (min vP vc : EVal) = min b0 vc := by
            rw [min_eq_right (le_of_lt hvca),
              min_eq_right (le_of_lt (lt_trans hvca h2))]
          simp only [hms]
          exact ih _ _ _ _ _ _ hrel'
            (Or.inr ⟨hvcb, lt_trans hvca h2, rfl, rfl⟩)
        · -- the child fails low: the pruned loop breaks here
          obtain ⟨hge, hle⟩ := hcase1 hvcb
          have hupA : vc' < vP := lt_of_le_of_lt hle h1
          have hupP : vc < vP := lt_of_le_of_lt hvcb h1
          simp only [if_pos hupA, if_pos hupP]
          have hbr : min vP vc' ≤ a :=
            le_trans (min_le_right vP vc') hle
          simp only [if_pos hbr]
          have hPge : (pureLoopMin childP rest c vc
              pa (min pb vc)).2 ≤ vc := pureLoopMin_value_ge _ _ _ _ _
          refine ⟨?_, ?_, ?_⟩
          · intro hP
            exact absurd (le_trans hP (le_trans hPge hvcb))
              (not_le.mpr hab)
          · intro hPlo hPhi
            exact absurd (lt_of_lt_of_le hPlo (le_trans hPge hvcb))
              (lt_irrefl a)
          · intro hP
            exact ⟨hle, le_trans hPge hge⟩

theorem pureMinimax_of_terminal {pick : List (Fin COLS) → Fin COLS}
    {piece : Nat} {g : Grid} (h : isTerminalNode piece g = true) (d : Nat)
    (alpha beta : EVal) (m : Bool) :
    pureMinimax pick piece d g alpha beta m = minimaxBase piece g := by
  cases d with
  | zero => rfl
  | succ d => simp only [pureMinimax, h, if_true]

theorem pureMaxChild_ab_irrel (pick : List (Fin COLS) → Fin COLS)
    (piece : Nat) (d : Nat) (g : Grid) :
    ∀ (c : Fin COLS) (a b a' b' : EVal),
      pureMaxChild pick piece d g c a b =
        pureMaxChild pick piece d g c a' b' := by
  intro c a b a' b'
  unfold pureMaxChild
  cases getNextOpenRow g c with
  | none => rfl
  | some row =>
    dsimp only
    rw [pureMinimax_ab_irrel pick piece d (setCell g row c piece)
      a b a' b' false]

theorem pureMinChild_ab_irrel (pick : List (Fin COLS) → Fin COLS)
    (piece : Nat) (d : Nat) (g : Grid) :
    ∀ (c : Fin COLS) (a b a' b' : EVal),
      pureMinChild pick piece d g c a b =
        pureMinChild pick piece d g c a' b' := by
  intro c a b a' b'
  unfold pureMinChild
  cases getNextOpenRow g c with
  | none => rfl
  | some row =>
    dsimp only
    rw [pureMinimax_ab_irrel pick piece d (setCell g row c (oppPiece piece))
      a b a' b' true]

/-- Knuth–Moore fail-soft correctness of the alpha-beta pruning of
`minimax` relative to the pruning-free `pureMinimax`, over any window
`alpha < beta` on gravity-consistent grids: a pure value at most `alpha`
bounds the pruned value from below; a pure value strictly inside the window
is reproduced exactly, column included; a pure value at least `beta` bounds
the pruned value from above. -/
theorem minimax_km (pick : List (Fin COLS) → Fin COLS) (piece : Nat) :
    ∀ (d : Nat) (g : Grid) (a b : EVal) (m : Bool), Stacked g → a < b →
      ((pureMinimax pick piece d g a b m).2 ≤ a →
        (minimax pick piece d g a b m).2 ≤ a ∧
        (pureMinimax pick piece d g a b m).2 ≤
          (minimax pick piece d g a b m).2) ∧
      (a < (pureMinimax pick piece d g a b m).2 →
        (pureMinimax pick piece d g a b m).2 < b →
        minimax pick piece d g a b m = pureMinimax pick piece d g a b m) ∧
      (b ≤ (pureMinimax pick piece d g a b m).2 →
        b ≤ (minimax pick piece d g a b m).2 ∧
        (minimax pick piece d g a b m).2 ≤
          (pureMinimax pick piece d g a b m).2) := by
  intro d
  induction d with
  | zero =>
    intro g a b m _ _
    exact ⟨fun hP => ⟨hP, le_refl _⟩, fun _ _ => rfl,
      fun hP => ⟨hP, le_refl _⟩⟩
  | succ d ih =>
    intro g a b m hst hab
    by_cases hterm : isTerminalNode piece g = true
    · rw [minimax_of_terminal hterm, pureMinimax_of_terminal hterm]
      exact ⟨fun hP => ⟨hP, le_refl _⟩, fun _ _ => rfl,
        fun hP => ⟨hP, le_refl _⟩⟩
    · have hterm' : isTerminalNode piece g = false := by
        cases hbv : isTerminalNode piece g
        · rfl
        · exact absurd hbv hterm
      cases m with
      | true =>
        rw [minimax_succ_max pick piece d g a b hterm',
          pureMinimax_succ_max pick piece d g a b hterm']
        have hrel : ∀ c ∈ getValidLocations g,
            ∃ vc, pureMaxChild pick piece d g c ⊥ ⊤ = some vc ∧
              ∀ alpha, a ≤ alpha → alpha < b →
                ∃ vc', maxChild pick piece d g c alpha b = some vc' ∧
                  (vc ≤ alpha → vc ≤ vc' ∧ vc' ≤ alpha) ∧
                  (alpha < vc → vc < b → vc' = vc) ∧
                  (b ≤ vc → b ≤ vc' ∧ vc' ≤ vc) := by
          intro c hc
          have htop := mem_getValidLocations.mp hc
          obtain ⟨row, hrow⟩ :=
            Option.isSome_iff_exists.mp (getNextOpenRow_isSome_of_top htop)
          have hst' : Stacked (setCell g row c piece) :=
            stacked_setCell hst hrow piece
          refine ⟨(pureMinimax pick piece d (setCell g row c piece)
            ⊥ ⊤ false).2, ?_, ?_⟩
          · unfold pureMaxChild
            rw [hrow]
          · intro alpha hal hab'
            have hkm := ih (setCell g row c piece) alpha b false hst' hab'
            have hpp : (pureMinimax pick piece d (setCell g row c piece)
                alpha b false).2 =
                (pureMinimax pick piece d (setCell g row c piece)
                  ⊥ ⊤ false).2 := by
              rw [pureMinimax_ab_irrel pick piece d
                (setCell g row c piece) alpha b ⊥ ⊤ false]
            rw [hpp] at hkm
            refine ⟨(minimax pick piece d (setCell g row c piece)
              alpha b false).2, ?_, ?_, ?_, hkm.2.2⟩
            · unfold maxChild
              rw [hrow]
            · intro h
              exact ⟨(hkm.1 h).2, (hkm.1 h).1⟩
            · intro hl hh
              exact (congrArg Prod.snd (hkm.2.1 hl hh)).trans hpp
        have hchP : ∀ c a1 b1 a2 b2,
            pureMaxChild pick piece d g c a1 b1 =
              pureMaxChild pick piece d g c a2 b2 :=
          fun c a1 b1 a2 b2 =>
            pureMaxChild_ab_irrel pick piece d g c a1 b1 a2 b2
        have hkm := abLoopMax_km hab hchP (getValidLocations g)
          (pick (getValidLocations g)) (pick (getValidLocations g))
          ⊥ ⊥ a b hrel (Or.inl ⟨bot_le, bot_le, le_refl ⊥⟩)
        simp only [max_eq_left bot_le] at hkm
        refine ⟨fun hP => hkm.1 hP, fun hl hh => ?_,
          fun hP => hkm.2.2 hP⟩
        exact congrArg
          (fun r : Fin COLS × EVal =>
            ((some r.1, r.2) : Option (Fin COLS) × EVal))
          (hkm.2.1 hl hh)
      | false =>
        rw [minimax_succ_min pick piece d g a b hterm',
          pureMinimax_succ_min pick piece d g a b hterm']
        have hrel : ∀ c ∈ getValidLocations g,
            ∃ vc, pureMinChild pick piece d g c ⊥ ⊤ = some vc ∧
              ∀ beta, beta ≤ b → a < beta →
                ∃ vc', minChild pick piece d g c a beta = some vc' ∧
                  (vc ≤ a → vc ≤ vc' ∧ vc' ≤ a) ∧
                  (a < vc → vc < beta → vc' = vc) ∧
                  (beta ≤ vc → beta ≤ vc' ∧ vc' ≤ vc) := by
          intro c hc
          have htop := mem_getValidLocations.mp hc
          obtain ⟨row, hrow⟩ :=
            Option.isSome_iff_exists.mp (getNextOpenRow_isSome_of_top htop)
          have hst' : Stacked (setCell g row c (oppPiece piece)) :=
            stacked_setCell hst hrow (oppPiece piece)
          refine ⟨(pureMinimax pick piece d
            (setCell g row c (oppPiece piece)) ⊥ ⊤ true).2, ?_, ?_⟩
          · unfold pureMinChild
            rw [hrow]
          · intro beta hbl hab'
            have hkm := ih (setCell g row c (oppPiece piece))
              a beta true hst' hab'
            have hpp : (pureMinimax pick piece d
                (setCell g row c (oppPiece piece)) a beta true).2 =
                (pureMinimax pick piece d
                  (setCell g row c (oppPiece piece)) ⊥ ⊤ true).2 := by
              rw [pureMinimax_ab_irrel pick piece d
                (setCell g row c (oppPiece piece)) a beta ⊥ ⊤ true]
            rw [hpp] at hkm
            refine ⟨(minimax pick piece d
              (setCell g row c (oppPiece piece)) a beta true).2,
              ?_, ?_, ?_, hkm.2.2⟩
            · unfold minChild
              rw [hrow]
            · intro h
              exact ⟨(hkm.1 h).2, (hkm.1 h).1⟩
            · intro hl hh
              exact (congrArg Prod.snd (hkm.2.1 hl hh)).trans hpp
        have hchP : ∀ c a1 b1 a2 b2,
            pureMinChild pick piece d g c a1 b1 =
              pureMinChild pick piece d g c a2 b2 :=
          fun c a1 b1 a2 b2 =>
            pureMinChild_ab_irrel pick piece d g c a1 b1 a2 b2
        have hkm := abLoopMin_km hab hchP (getValidLocations g)
          (pick (getValidLocations g)) (pick (getValidLocations g))
          ⊤ ⊤ a b hrel (Or.inl ⟨le_top, le_top, le_refl ⊤⟩)
        simp only [min_eq_left le_top] at hkm
        refine ⟨fun hP => hkm.2.2 hP, fun hl hh => ?_,
          fun hP => hkm.1 hP⟩
        exact congrArg
          (fun r : Fin COLS × EVal =>
            ((some r.1, r.2) : Option (Fin COLS) × EVal))
          (hkm.2.1 hl hh)

/-- C7: for every gravity-consistent game position and every depth, the
column returned by the alpha-beta `minimax` (called, as `get_move` calls
it, on the full window `(-inf, +inf)` at the maximizing root) equals the
column returned by the same minimax algorithm with the `alpha >= beta`
cutoff removed, with identical column ordering and tie-breaking — pruning
changes cost, not the decision. -/
theorem c7_pruning_same_column (pick : List (Fin COLS) → Fin COLS)
    (piece : Nat) (d : Nat) (g : Grid) (hst : Stacked g) :
    (minimax pick piece d g ⊥ ⊤ true).1 =
      (pureMinimax pick piece d g ⊥ ⊤ true).1 := by
  have hab : (⊥ : EVal) < ⊤ :=
    lt_trans (bot_lt_toEVal 0) (toEVal_lt_top 0)
  have hkm := minimax_km pick piece d g ⊥ ⊤ true hst hab
  obtain ⟨z, hz⟩ := minimax_value_finite pick piece d g ⊥ ⊤ true hst
  rcases le_or_lt (pureMinimax pick piece d g ⊥ ⊤ true).2 ⊥ with hle | hgt
  · obtain ⟨hA, -⟩ := hkm.1 hle
    rw [hz] at hA
    exact absurd (lt_of_lt_of_le (bot_lt_toEVal z) hA) (lt_irrefl ⊥)
  · rcases le_or_lt ⊤ (pureMinimax pick piece d g ⊥ ⊤ true).2 with hge | hlt
    · obtain ⟨hA, -⟩ := hkm.2.2 hge
      rw [hz] at hA
      exact absurd (lt_of_le_of_lt hA (toEVal_lt_top z)) (lt_irrefl ⊤)
    · rw [hkm.2.1 hgt hlt]

/-- Witness for C7 on the empty grid at depth 2. -/
theorem c7_witness :
    Stacked emptyGrid ∧
      (minimax headPick PLAYER1 2 emptyGrid ⊥ ⊤ true).1 =
        (pureMinimax headPick PLAYER1 2 emptyGrid ⊥ ⊤ true).1 :=
  ⟨by decide, c7_pruning_same_column headPick PLAYER1 2 emptyGrid (by decide)⟩

end ConnectFour
